import Mathlib

/-!
Verification development for the equation-system regression engine in
`statsmodels/sysreg/sysmodel.py` (classes `SysModel`, `SysGLS`, `SysWLS`,
`SysOLS`, `SysResults`).

Embedding conventions.

* A numpy 2-d array is a `Mat α := List (List α)` (row major, exactly the
  nesting numpy prints).  `entryM A i j` reads an entry with the usual
  out-of-range default `0`, `Dims A m n` says `A` really is an `m × n`
  rectangle.
* The numpy building blocks that the source calls are implemented over
  lists following their documented semantics: `np.dot` is `matMul`,
  `np.kron` is `kronL`, `scipy.linalg.block_diag` is `blockDiagL`,
  `np.diag` of a vector is `diagL`, `np.eye`/`np.ones` are `eyeL`/`onesL`,
  `.T` is `transposeL`, `.reshape(-1,1)` is `reshapeNeg1_1`.
* The two numerical factorizations the source calls, `np.linalg.pinv` and
  `np.linalg.cholesky`, are external SVD/LAPACK routines; they are modelled
  relationally by their defining equations: `IsPinv A P` states the four
  Moore-Penrose equations (which characterise `np.linalg.pinv A` uniquely),
  and `CholFac L P G` states that `L` is the lower-triangular
  positive-diagonal factor with `L * Lᵀ = P` (which characterises the
  `np.linalg.cholesky` output, the routine succeeding exactly when such a
  factor exists).  Constructors take the routine outputs as explicit
  arguments (`chol`, `pinvW`) and theorems carry these specifications as
  hypotheses.
* Python control flow that can raise is modelled in `Except PyErr`:
  `ValueError` (the message of the two `raise` statements in the source),
  `IndexError` (raised by `sys[0]` on an empty list) and `AttributeError`
  (raised by `sigma.shape` when `sigma` is a plain Python number, which has
  no `shape` attribute).  A `sigma`/`weights` argument is a
  `PyVal α` — either a plain Python number or an ndarray; `np.asarray`
  converts the former to a 0-d array.
-/

namespace SysReg

/-- Row-major list-of-lists matrix, the shape of a numpy 2-d array. -/
abbrev Mat (α : Type) : Type := List (List α)

section CoreDefs

variable {α : Type} [CommRing α]

/-- Entry read with default `0` (indices `i`, `j` are 0-based). -/
def entryM (A : Mat α) (i j : Nat) : α := (A.getD i []).getD j 0

/-- `A` is a well-formed `m × n` matrix. -/
def Dims (A : Mat α) (m n : Nat) : Prop :=
  A.length = m ∧ ∀ r ∈ A, r.length = n

/-- Dot product of two rows, `np.dot` on 1-d data. -/
def dotL (xs ys : List α) : α := (List.zipWith (fun a b => a * b) xs ys).sum

/-- Column count as numpy would report it for a rectangular array. -/
def colsOf (A : Mat α) : Nat := (A.headD []).length

/-- Matrix transpose `A.T`. -/
def transposeL (A : Mat α) : Mat α :=
  (List.range (colsOf A)).map fun j => A.map fun r => r.getD j 0

/-- Matrix product `np.dot(A, B)` on 2-d data. -/
def matMul (A B : Mat α) : Mat α :=
  A.map fun r => (transposeL B).map fun c => dotL r c

/-- Vector of ones, `np.ones(n)`. -/
def onesL (n : Nat) : List α := List.replicate n 1

/-- Diagonal matrix from a vector, `np.diag(v)`. -/
def diagL (v : List α) : Mat α :=
  (List.range v.length).map fun i =>
    (List.range v.length).map fun j => if i = j then v.getD i 0 else 0

/-- Identity matrix, `np.eye(n)` (the source also writes it
`np.diag(np.ones(n))`). -/
def eyeL (n : Nat) : Mat α := diagL (onesL n)

/-- Kronecker product `np.kron(A, B)` of 2-d arrays: the block matrix with
blocks `A i j • B`, laid out row-major. -/
def kronL (A B : Mat α) : Mat α :=
  (A.map fun ar =>
    B.map fun br => (ar.map fun a => br.map fun b => a * b).flatten).flatten

/-- Total column count of a list of blocks. -/
def totalColsOf (ms : List (Mat α)) : Nat := (ms.map colsOf).sum

/-- Block-diagonal stacking, `scipy.linalg.block_diag(*blocks)`: block `i`
occupies its own row range and its own column range, zeros elsewhere. -/
def blockDiagL : List (Mat α) → Mat α
  | [] => []
  | A :: rest =>
      A.map (fun r => r ++ List.replicate (totalColsOf rest) (0 : α))
        ++ (blockDiagL rest).map fun r => List.replicate (colsOf A) (0 : α) ++ r

/-- Row-major flatten to a single column, `M.reshape(-1, 1)`. -/
def reshapeNeg1_1 (M : Mat α) : Mat α := M.flatten.map fun x => [x]

end CoreDefs

section Pipeline

variable {α : Type} [CommRing α]

/-- One equation of the system: the dict `{'endog': y_i, 'exog': X_i}`. -/
structure Equation (α : Type) where
  endog : List α
  exog : Mat α
deriving Repr

instance {α : Type} : Inhabited (Equation α) := ⟨⟨[], []⟩⟩

/-- Shape classes of a numpy array argument: 0-d scalar, 1-d vector,
2-d matrix. -/
inductive NpArr (α : Type) where
  | scalar0 (v : α)
  | vec (v : List α)
  | mat (m : Mat α)
deriving Repr

/-- A Python value passed for `sigma`/`weights`: either a plain Python
number (no ndarray attributes) or an ndarray. -/
inductive PyVal (α : Type) where
  | num (v : α)
  | arr (a : NpArr α)
deriving Repr

/-- The Python exceptions the modelled code can raise.  The spec's
`ConfigurationError` corresponds to the code's `ValueError`. -/
inductive PyErr where
  | indexError
  | attributeError
  | valueError (msg : String)
deriving Repr, DecidableEq

/-- Discriminator for the `ValueError` class (the error the spec calls
`ConfigurationError`). -/
def isValueError : PyErr → Bool
  | .valueError _ => true
  | _ => false

/-- `np.asarray`: a plain Python number becomes a 0-d array, an ndarray is
returned unchanged. -/
def asarray : PyVal α → NpArr α
  | .num v => .scalar0 v
  | .arr a => a

/-- The attributes set by `SysModel.__init__`. -/
structure SysModelData (α : Type) where
  neqs : Nat
  nobs : Nat
  endog : Mat α
  exog : Mat α
  sp_exog : Mat α
deriving Repr

/-- The `exog` attribute: `np.column_stack((eq['exog'] for eq in sys))`,
the per-equation regressor blocks side by side in columns. -/
def denseExogOf (sys : List (Equation α)) (nobs : Nat) : Mat α :=
  (List.range nobs).map fun r => (sys.map fun e => e.exog.getD r []).flatten

/-- `SysModel.__init__(sys)`.  On an empty list, `len(sys[0]['endog'])`
raises `IndexError` before anything else happens.  `endog` is
`np.column_stack((eq['endog'] ...)).T`, whose row `i` is equation `i`'s
response; `sp_exog` is `scipy.linalg.block_diag` of the regressor blocks. -/
def sysModelInit (sys : List (Equation α)) : Except PyErr (SysModelData α) :=
  match sys with
  | [] => .error .indexError
  | e0 :: _ =>
      .ok { neqs := sys.length
            nobs := e0.endog.length
            endog := sys.map Equation.endog
            exog := denseExogOf sys e0.endog.length
            sp_exog := blockDiagL (sys.map Equation.exog) }

/-- The `sigma` normalisation of `SysGLS.__init__`: `None` gives
`np.diag(np.ones(G))`; a plain Python number raises `AttributeError` at
`sigma.shape`; a 0-d array gives `np.diag(np.ones(G)*sigma)`; a length-`G`
1-d array gives `np.diag(sigma)`; a `(G, G)` 2-d array is taken as is; any
other shape raises `ValueError`. -/
def resolveSigma (G : Nat) : Option (PyVal α) → Except PyErr (Mat α)
  | none => .ok (diagL (onesL G))
  | some (.num _) => .error .attributeError
  | some (.arr (.scalar0 s)) => .ok (diagL ((onesL G).map fun o => o * s))
  | some (.arr (.vec v)) =>
      if v.length = G then .ok (diagL v)
      else .error (.valueError "sigma is not correctly specified")
  | some (.arr (.mat M)) =>
      if M.length = G ∧ colsOf M = G then .ok M
      else .error (.valueError "sigma is not correctly specified")

/-- The attributes set by `SysGLS.__init__` on top of `SysModel`. -/
structure SysGLSData (α : Type) extends SysModelData α where
  sigma : Mat α
  cholsigmainv : Mat α
  wexog : Mat α
  wendog : Mat α
  pinv_wexog : Mat α
deriving Repr

/-- `SysGLS.whiten(X)`: multiply by `np.kron(cholsigmainv, np.eye(nobs))`. -/
def whitenL (cholsigmainv : Mat α) (nobs : Nat) (X : Mat α) : Mat α :=
  matMul (kronL cholsigmainv (eyeL nobs)) X

/-- `SysGLS.__init__(sys, sigma)`.  The outputs of the two external
numerical routines are passed in: `chol` stands for
`np.linalg.cholesky(np.linalg.pinv(self.sigma))` and `pinvW` for
`np.linalg.pinv(self.wexog)`; theorems constrain them by their defining
equations (`CholFac`, `IsPinv`).  `cholsigmainv` is `chol.T`; the whitened
design and response are computed eagerly at construction. -/
def sysGLSInit (sys : List (Equation α)) (sigma : Option (PyVal α))
    (chol pinvW : Mat α) : Except PyErr (SysGLSData α) := do
  let base ← sysModelInit sys
  let sg ← resolveSigma base.neqs sigma
  let csi := transposeL chol
  .ok { base with
        sigma := sg
        cholsigmainv := csi
        wexog := whitenL csi base.nobs base.sp_exog
        wendog := whitenL csi base.nobs (reshapeNeg1_1 base.endog)
        pinv_wexog := pinvW }

/-- The whitening operator the model applies: the matrix
`np.kron(self.cholsigmainv, np.eye(self.nobs))` of `SysGLS.whiten`. -/
def whitenOpL (m : SysGLSData α) : Mat α := kronL m.cholsigmainv (eyeL m.nobs)

/-- The result container `SysResults` (via `LikelihoodModelResults`):
parameters, normalized covariance of the parameters, scale, and the model
reference. -/
structure SysResultsData (α : Type) where
  model : SysGLSData α
  params : Mat α
  normalized_cov_params : Mat α
  scale : α
deriving Repr

/-- `SysGLS.fit()`: `beta = np.dot(pinv_wexog, wendog)`,
`normalized_cov_params = np.dot(pinv_wexog, pinv_wexog.T)`, scale 1. -/
def sysGLSFit (m : SysGLSData α) : SysResultsData α :=
  { model := m
    params := matMul m.pinv_wexog m.wendog
    normalized_cov_params := matMul m.pinv_wexog (transposeL m.pinv_wexog)
    scale := 1 }

/-- `SysWLS.__init__(sys, weights)`: `weights = np.asarray(weights)`; a 0-d
array gives `sigma = np.diag(np.ones(neqs)*weights)`, a length-`neqs` 1-d
array gives `sigma = np.diag(weights)`, anything else raises `ValueError`;
then `SysGLS.__init__(sys, sigma)` runs on the resulting `(G, G)` array. -/
def sysWLSInit (sys : List (Equation α)) (weights : PyVal α)
    (chol pinvW : Mat α) : Except PyErr (SysGLSData α) :=
  match asarray weights with
  | .scalar0 s =>
      sysGLSInit sys
        (some (.arr (.mat (diagL ((onesL sys.length).map fun o => o * s)))))
        chol pinvW
  | .vec v =>
      if v.length = sys.length then
        sysGLSInit sys (some (.arr (.mat (diagL v)))) chol pinvW
      else .error (.valueError "weights is not correctly specified")
  | .mat _ => .error (.valueError "weights is not correctly specified")

end Pipeline

section Specs

variable {α : Type} [CommRing α]

/-- The four Moore-Penrose equations: `P` is the pseudo-inverse of `A`.
They characterise `np.linalg.pinv(A)` uniquely (`isPinv_unique` below). -/
def IsPinv (A P : Mat α) : Prop :=
  matMul (matMul A P) A = A ∧ matMul (matMul P A) P = P ∧
    transposeL (matMul A P) = matMul A P ∧
    transposeL (matMul P A) = matMul P A

instance {A P : Mat ℚ} : Decidable (IsPinv A P) := by
  unfold IsPinv; infer_instance

instance {A : Mat ℚ} {m n : Nat} : Decidable (Dims A m n) := by
  unfold Dims; infer_instance

/-- Entries strictly above the diagonal vanish (inside the `G × G` range;
outside it `entryM` is `0` anyway). -/
def LowerTri (L : Mat α) (G : Nat) : Prop :=
  ∀ i < G, ∀ j < G, i < j → entryM L i j = 0

instance {L : Mat ℚ} {G : Nat} : Decidable (LowerTri L G) := by
  unfold LowerTri
  infer_instance

end Specs

section OrderedSpecs

variable {α : Type} [LinearOrderedField α]

/-- `L` is the output of `np.linalg.cholesky(P)` for a `G × G` input: the
lower-triangular matrix with strictly positive diagonal satisfying
`L @ L.T = P`.  Such an `L` exists precisely when the routine succeeds
(it raises `LinAlgError` otherwise). -/
def CholFac (L P : Mat α) (G : Nat) : Prop :=
  Dims L G G ∧ LowerTri L G ∧ (∀ i, i < G → 0 < entryM L i i) ∧
    matMul L (transposeL L) = P

instance {L P : Mat ℚ} {G : Nat} : Decidable (CholFac L P G) := by
  unfold CholFac Dims
  infer_instance

/-- Success predicate of `np.linalg.cholesky` on the (symmetric) `G × G`
input `P`: a Cholesky factor exists. -/
def choleskyFactorable (P : Mat α) (G : Nat) : Prop :=
  ∃ L : Mat α, CholFac L P G

end OrderedSpecs

section BridgeDefs

open Matrix

variable {α : Type} [CommRing α]

/-- View of a list matrix as a Mathlib matrix of the stated size
(out-of-range entries read as `0`, irrelevant under `Dims`). -/
def toMat (A : Mat α) (m n : Nat) : Matrix (Fin m) (Fin n) α :=
  Matrix.of fun i j => entryM A i.1 j.1

/-- List matrix holding the entries of a Mathlib matrix. -/
def ofMat {m n : Nat} (M : Matrix (Fin m) (Fin n) α) : Mat α :=
  (List.finRange m).map fun i => (List.finRange n).map fun j => M i j

/-- Moore-Penrose equations at the Mathlib matrix level. -/
def MPMat {m n : Nat} (A : Matrix (Fin m) (Fin n) α)
    (P : Matrix (Fin n) (Fin m) α) : Prop :=
  A * P * A = A ∧ P * A * P = P ∧ (A * P)ᵀ = A * P ∧ (P * A)ᵀ = P * A

/-- The Kronecker product with an `N × N` identity, re-indexed to flat
(row-major) indices — the shape `np.kron(C, np.eye(N))` has. -/
def kronFin {a b : Nat} (M : Matrix (Fin a) (Fin b) α) (N : Nat) :
    Matrix (Fin (a * N)) (Fin (b * N)) α :=
  (Matrix.kroneckerMap (fun x y => x * y) M
      (1 : Matrix (Fin N) (Fin N) α)).submatrix
    finProdFinEquiv.symm finProdFinEquiv.symm

/-- Rows `[a, a + b)` of a list matrix (`A[a : a + b]`). -/
def rowSliceL (A : Mat α) (a b : Nat) : Mat α := (A.drop a).take b

/-- Scalar multiple of a matrix, `c * M` in numpy. -/
def scaleMat (c : α) (M : Mat α) : Mat α := M.map fun r => r.map fun x => c * x

end BridgeDefs

section BasicLemmas

variable {α : Type} [CommRing α]

theorem length_diagL (v : List α) : (diagL v).length = v.length := by
  simp [diagL]

theorem colsOf_diagL (v : List α) : colsOf (diagL v) = v.length := by
  unfold colsOf diagL
  cases h : v.length with
  | zero => simp
  | succ k => simp [List.range_succ_eq_map]

theorem resolveSigma_vec (G : Nat) (v : List α) :
    resolveSigma G (some (.arr (.vec v))) =
      if v.length = G then .ok (diagL v)
      else .error (.valueError "sigma is not correctly specified") := rfl

theorem resolveSigma_mat (G : Nat) (M : Mat α) :
    resolveSigma G (some (.arr (.mat M))) =
      if M.length = G ∧ colsOf M = G then .ok M
      else .error (.valueError "sigma is not correctly specified") := rfl

theorem sysGLSInit_cons (e0 : Equation α) (rest : List (Equation α))
    (si : Option (PyVal α)) (chol pinvW : Mat α) :
    sysGLSInit (e0 :: rest) si chol pinvW =
      (resolveSigma (e0 :: rest).length si).bind fun sg =>
        Except.ok
          { neqs := (e0 :: rest).length
            nobs := e0.endog.length
            endog := (e0 :: rest).map Equation.endog
            exog := denseExogOf (e0 :: rest) e0.endog.length
            sp_exog := blockDiagL ((e0 :: rest).map Equation.exog)
            sigma := sg
            cholsigmainv := transposeL chol
            wexog := whitenL (transposeL chol) e0.endog.length
              (blockDiagL ((e0 :: rest).map Equation.exog))
            wendog := whitenL (transposeL chol) e0.endog.length
              (reshapeNeg1_1 ((e0 :: rest).map Equation.endog))
            pinv_wexog := pinvW } := rfl

theorem sysGLSInit_ok (sys : List (Equation α)) (si : Option (PyVal α))
    (chol pinvW : Mat α) (st : SysGLSData α)
    (h : sysGLSInit sys si chol pinvW = .ok st) :
    ∃ e0 rest sg, sys = e0 :: rest ∧
      resolveSigma (e0 :: rest).length si = .ok sg ∧
      st = { neqs := (e0 :: rest).length
             nobs := e0.endog.length
             endog := (e0 :: rest).map Equation.endog
             exog := denseExogOf (e0 :: rest) e0.endog.length
             sp_exog := blockDiagL ((e0 :: rest).map Equation.exog)
             sigma := sg
             cholsigmainv := transposeL chol
             wexog := whitenL (transposeL chol) e0.endog.length
               (blockDiagL ((e0 :: rest).map Equation.exog))
             wendog := whitenL (transposeL chol) e0.endog.length
               (reshapeNeg1_1 ((e0 :: rest).map Equation.endog))
             pinv_wexog := pinvW } := by
  cases sys with
  | nil =>
    exact Except.noConfusion
      (show Except.error PyErr.indexError = Except.ok st from h)
  | cons e0 rest =>
    rw [sysGLSInit_cons] at h
    cases hres : resolveSigma (e0 :: rest).length si with
    | error e =>
      rw [hres] at h
      exact Except.noConfusion (show Except.error e = Except.ok st from h)
    | ok sg =>
      rw [hres] at h
      refine ⟨e0, rest, sg, rfl, hres, ?_⟩
      exact (Except.ok.inj (show Except.ok _ = Except.ok st from h)).symm

theorem sysWLSInit_vec (sys : List (Equation α)) (w : List α)
    (chol pinvW : Mat α) (hw : w.length = sys.length) :
    sysWLSInit sys (.arr (.vec w)) chol pinvW =
      sysGLSInit sys (some (.arr (.mat (diagL w)))) chol pinvW := by
  show (if w.length = sys.length then
      sysGLSInit sys (some (.arr (.mat (diagL w)))) chol pinvW
    else .error (.valueError "weights is not correctly specified")) = _
  rw [if_pos hw]

end BasicLemmas

/-- Claim C2: for every system with `G` equations, covariance resolution
maps each of the four accepted input shapes to a canonical `G × G` matrix:
an absent input resolves to `identity(G)`; a 0-d scalar `s` to
`s * identity(G)`; a length-`G` vector `v` to `diag(v)`; a `G × G` matrix
is used as-is. -/
theorem claim_C2_covariance_resolution (G : Nat) (s : ℚ) (v : List ℚ)
    (M : Mat ℚ) (hv : v.length = G) (hM : Dims M G G) :
    resolveSigma (α := ℚ) G none = .ok (eyeL G) ∧
    resolveSigma G (some (.arr (.scalar0 s))) =
      .ok ((eyeL G).map fun r => r.map fun x => s * x) ∧
    resolveSigma G (some (.arr (.vec v))) = .ok (diagL v) ∧
    resolveSigma G (some (.arr (.mat M))) = .ok M := by
  obtain ⟨hM1, hM2⟩ := hM
  refine ⟨rfl, ?_, ?_, ?_⟩
  · show Except.ok (diagL ((onesL G).map fun o => o * s)) = _
    unfold eyeL diagL onesL
    simp only [List.map_replicate, one_mul, List.length_replicate,
      List.map_map, Except.ok.injEq]
    refine List.map_congr_left fun i hi => ?_
    simp only [Function.comp_apply, List.map_map]
    refine List.map_congr_left fun j hj => ?_
    simp only [Function.comp_apply]
    rw [List.mem_range] at hi hj
    by_cases hij : i = j
    · subst hij
      simp [List.getD_eq_getElem?_getD, List.getElem?_replicate, hi, mul_comm]
    · simp [hij]
  · rw [resolveSigma_vec, if_pos hv]
  · rw [resolveSigma_mat, if_pos]
    refine ⟨hM1, ?_⟩
    rcases M with _ | ⟨r, M⟩
    · simpa [colsOf] using hM1
    · exact hM2 r (List.mem_cons_self r M)

theorem claim_C2_witness :
    resolveSigma (α := ℚ) 2 none = .ok (eyeL 2) ∧
    resolveSigma 2 (some (.arr (.scalar0 (5 : ℚ)))) =
      .ok ((eyeL 2).map fun r => r.map fun x => (5 : ℚ) * x) ∧
    resolveSigma 2 (some (.arr (.vec [(3 : ℚ), 4]))) =
      .ok (diagL [(3 : ℚ), 4]) ∧
    resolveSigma 2 (some (.arr (.mat [[(1 : ℚ), 2], [2, 9]]))) =
      .ok [[(1 : ℚ), 2], [2, 9]] :=
  claim_C2_covariance_resolution 2 5 [3, 4] [[1, 2], [2, 9]] (by decide)
    ⟨by decide, by decide⟩

/-- Claim C10: the GLS constructor's scalar branch tests `sigma.shape`
without converting `sigma` first, so a plain Python number raises
`AttributeError` there; the WLS constructor applies `np.asarray` to
`weights` first, so a plain Python number is accepted and resolved through
the scalar branch to `diag(ones(G) * w)`. -/
theorem claim_C10_plain_scalar (sys : List (Equation ℚ)) (s : ℚ)
    (chol pinvW : Mat ℚ) (hsys : sys ≠ []) :
    sysGLSInit sys (some (.num s)) chol pinvW = .error .attributeError ∧
    sysWLSInit sys (.num s) chol pinvW =
      sysGLSInit sys
        (some (.arr (.mat (diagL ((onesL sys.length).map fun o => o * s)))))
        chol pinvW ∧
    ∃ st, sysWLSInit sys (.num s) chol pinvW = .ok st := by
  obtain ⟨e0, rest, rfl⟩ := List.exists_cons_of_ne_nil hsys
  refine ⟨rfl, rfl, ?_⟩
  rw [show sysWLSInit (e0 :: rest) (.num s) chol pinvW =
      sysGLSInit (e0 :: rest)
        (some (.arr (.mat (diagL ((onesL (e0 :: rest).length).map
          fun o => o * s))))) chol pinvW from rfl,
    sysGLSInit_cons, resolveSigma_mat, if_pos]
  · exact ⟨_, rfl⟩
  · constructor
    · simp [length_diagL, onesL]
    · simp [colsOf_diagL, onesL]

theorem claim_C10_witness :
    (sysGLSInit [(⟨[1], [[1]]⟩ : Equation ℚ)] (some (.num 7)) [[1]] [[1]] =
        .error .attributeError ∧
      sysWLSInit [(⟨[1], [[1]]⟩ : Equation ℚ)] (.num 7) [[1]] [[1]] =
        sysGLSInit [(⟨[1], [[1]]⟩ : Equation ℚ)]
          (some (.arr (.mat (diagL ((onesL 1).map fun o => o * (7 : ℚ))))))
          [[1]] [[1]] ∧
      ∃ st, sysWLSInit [(⟨[1], [[1]]⟩ : Equation ℚ)] (.num 7) [[1]] [[1]] =
        .ok st) :=
  claim_C10_plain_scalar [⟨[1], [[1]]⟩] 7 [[1]] [[1]]
    (List.cons_ne_nil _ _)

/-- Claim C5, counterexample: constructing on the empty equation list does
fail, but with `IndexError` (raised by the unguarded `sys[0]` subscript),
not with the `ValueError` that realises the spec's `ConfigurationError`. -/
theorem claim_C5_counterexample :
    sysGLSInit ([] : List (Equation ℚ)) none [] [] = .error .indexError ∧
    isValueError .indexError = false :=
  ⟨rfl, rfl⟩

/-- Claim C5 as amended: construction fails before any estimation state is
built — with `IndexError` when the equation list is empty, and with
`ValueError` (the spec's `ConfigurationError`) when a covariance vector has
length other than `G`, a covariance matrix has shape other than `(G, G)`,
or a weights vector has length other than `G`. -/
theorem claim_C5_construction_errors (sys : List (Equation ℚ)) (v : List ℚ)
    (M : Mat ℚ) (w : List ℚ) (chol pinvW : Mat ℚ) (hsys : sys ≠ [])
    (hv : v.length ≠ sys.length)
    (hM : ¬(M.length = sys.length ∧ colsOf M = sys.length))
    (hw : w.length ≠ sys.length) :
    sysGLSInit ([] : List (Equation ℚ)) none chol pinvW =
      .error .indexError ∧
    sysGLSInit sys (some (.arr (.vec v))) chol pinvW =
      .error (.valueError "sigma is not correctly specified") ∧
    sysGLSInit sys (some (.arr (.mat M))) chol pinvW =
      .error (.valueError "sigma is not correctly specified") ∧
    sysWLSInit sys (.arr (.vec w)) chol pinvW =
      .error (.valueError "weights is not correctly specified") := by
  obtain ⟨e0, rest, rfl⟩ := List.exists_cons_of_ne_nil hsys
  refine ⟨rfl, ?_, ?_, ?_⟩
  · rw [sysGLSInit_cons, resolveSigma_vec, if_neg hv]
    rfl
  · rw [sysGLSInit_cons, resolveSigma_mat, if_neg hM]
    rfl
  · show (if w.length = (e0 :: rest).length then
        sysGLSInit (e0 :: rest) (some (.arr (.mat (diagL w)))) chol pinvW
      else .error (.valueError "weights is not correctly specified")) = _
    rw [if_neg hw]

theorem claim_C5_witness :
    (sysGLSInit ([] : List (Equation ℚ)) none [] [] = .error .indexError ∧
      sysGLSInit [(⟨[1], [[1]]⟩ : Equation ℚ)] (some (.arr (.vec [1, 2])))
          [] [] =
        .error (.valueError "sigma is not correctly specified") ∧
      sysGLSInit [(⟨[1], [[1]]⟩ : Equation ℚ)]
          (some (.arr (.mat [[1, 2], [3, 4]]))) [] [] =
        .error (.valueError "sigma is not correctly specified") ∧
      sysWLSInit [(⟨[1], [[1]]⟩ : Equation ℚ)] (.arr (.vec [1, 2])) [] [] =
        .error (.valueError "weights is not correctly specified")) :=
  claim_C5_construction_errors [⟨[1], [[1]]⟩] [1, 2] [[1, 2], [3, 4]] [1, 2]
    [] [] (List.cons_ne_nil _ _) (by decide) (by decide) (by decide)

/-- Claim C7: for every system and every length-`G` weights vector `w`, the
WLS constructor builds exactly the GLS model configured with covariance
`diag(w)` — the constructed states coincide, hence `fit()` returns
numerically identical parameters and parameter covariance. -/
theorem claim_C7_wls_is_gls_diag (sys : List (Equation ℚ)) (w : List ℚ)
    (chol pinvW : Mat ℚ) (hw : w.length = sys.length) :
    sysWLSInit sys (.arr (.vec w)) chol pinvW =
      sysGLSInit sys (some (.arr (.mat (diagL w)))) chol pinvW ∧
    (sysWLSInit sys (.arr (.vec w)) chol pinvW).map sysGLSFit =
      (sysGLSInit sys (some (.arr (.mat (diagL w)))) chol pinvW).map
        sysGLSFit := by
  have h := sysWLSInit_vec sys w chol pinvW hw
  exact ⟨h, by rw [h]⟩

theorem claim_C7_witness :
    (sysWLSInit [(⟨[1], [[1]]⟩ : Equation ℚ)] (.arr (.vec [4])) [[1]] [[1]] =
        sysGLSInit [(⟨[1], [[1]]⟩ : Equation ℚ)]
          (some (.arr (.mat (diagL [(4 : ℚ)])))) [[1]] [[1]] ∧
      (sysWLSInit [(⟨[1], [[1]]⟩ : Equation ℚ)] (.arr (.vec [4])) [[1]]
            [[1]]).map sysGLSFit =
        (sysGLSInit [(⟨[1], [[1]]⟩ : Equation ℚ)]
            (some (.arr (.mat (diagL [(4 : ℚ)])))) [[1]] [[1]]).map
          sysGLSFit) :=
  claim_C7_wls_is_gls_diag [⟨[1], [[1]]⟩] [4] [[1]] [[1]] (by decide)

section IndexLemmas

variable {β γ : Type}

theorem getD_map_lt (f : β → γ) (l : List β) (i : Nat) (d : γ) (d' : β)
    (h : i < l.length) : (l.map f).getD i d = f (l.getD i d') := by
  rw [List.getD_eq_getElem (l.map f) d (by simpa using h),
    List.getD_eq_getElem l d' h, List.getElem_map]

theorem getD_replicate_lt (a : β) (n i : Nat) (d : β) (h : i < n) :
    (List.replicate n a).getD i d = a := by
  rw [List.getD_eq_getElem (List.replicate n a) d (by simpa using h)]
  exact List.getElem_replicate _ (by simpa using h)

theorem getD_replicate_zero {α : Type} [CommRing α] (n i : Nat) :
    (List.replicate n (0 : α)).getD i 0 = 0 := by
  by_cases h : i < n
  · exact getD_replicate_lt _ _ _ _ h
  · exact List.getD_eq_default _ _ (by simpa using Nat.le_of_not_lt h)

theorem getD_mem_of_lt (l : List β) (i : Nat) (d : β) (h : i < l.length) :
    l.getD i d ∈ l := by
  rw [List.getD_eq_getElem l d h]
  exact List.getElem_mem h

theorem getD_range_lt (n i : Nat) (d : Nat) (h : i < n) :
    (List.range n).getD i d = i := by
  rw [List.getD_eq_getElem (List.range n) d (by simpa using h)]
  exact List.getElem_range _ (by simpa using h)

end IndexLemmas

section BlockDiagLemmas

variable {α : Type} [CommRing α]

theorem colsOf_eq (A : Mat α) (m n : Nat) (hd : Dims A m n) (hm : 0 < m) :
    colsOf A = n := by
  obtain ⟨h1, h2⟩ := hd
  rcases A with _ | ⟨r, A⟩
  · simp at h1
    omega
  · exact h2 r (List.mem_cons_self r A)

theorem totalColsOf_cons (A : Mat α) (rest : List (Mat α)) :
    totalColsOf (A :: rest) = colsOf A + totalColsOf rest := by
  simp [totalColsOf]

theorem totalColsOf_eq (ms : List (Mat α)) (N : Nat) (Ks : List Nat)
    (hN : 0 < N) (hlen : Ks.length = ms.length)
    (hdim : ∀ i, i < ms.length → Dims (ms.getD i []) N (Ks.getD i 0)) :
    totalColsOf ms = Ks.sum := by
  induction ms generalizing Ks with
  | nil =>
    rcases Ks with _ | ⟨k, ks⟩
    · simp [totalColsOf]
    · simp at hlen
  | cons A rest ih =>
    rcases Ks with _ | ⟨k, ks⟩
    · simp at hlen
    · have h0 := hdim 0 (by simp)
      simp only [List.getD_cons_zero] at h0
      have hA : colsOf A = k := colsOf_eq A N k h0 hN
      have hrest : totalColsOf rest = ks.sum := by
        refine ih ks (by simpa using hlen) fun i hi => ?_
        have := hdim (i + 1) (by simpa using Nat.succ_lt_succ hi)
        simpa using this
      rw [totalColsOf_cons, hA, hrest, List.sum_cons]

theorem blockDiag_dims (ms : List (Mat α)) (N : Nat) (Ks : List Nat)
    (hN : 0 < N) (hlen : Ks.length = ms.length)
    (hdim : ∀ i, i < ms.length → Dims (ms.getD i []) N (Ks.getD i 0)) :
    Dims (blockDiagL ms) (ms.length * N) Ks.sum := by
  induction ms generalizing Ks with
  | nil =>
    exact ⟨by simp [blockDiagL], by simp [blockDiagL]⟩
  | cons A rest ih =>
    rcases Ks with _ | ⟨k, ks⟩
    · simp at hlen
    · have h0 := hdim 0 (by simp)
      simp only [List.getD_cons_zero] at h0
      have hdrest : ∀ i, i < rest.length → Dims (rest.getD i []) N (ks.getD i 0) := by
        intro i hi
        have := hdim (i + 1) (by simpa using Nat.succ_lt_succ hi)
        simpa using this
      have hrest := ih ks (by simpa using hlen) hdrest
      have hcolsrest : totalColsOf rest = ks.sum :=
        totalColsOf_eq rest N ks hN (by simpa using hlen) hdrest
      have hA : colsOf A = k := colsOf_eq A N k h0 hN
      constructor
      · simp only [blockDiagL, List.length_append, List.length_map, h0.1,
          hrest.1, List.length_cons]
        ring
      · intro r hr
        simp only [blockDiagL, List.mem_append, List.mem_map] at hr
        rcases hr with ⟨r0, hr0, rfl⟩ | ⟨r0, hr0, rfl⟩
        · simp only [List.length_append, List.length_replicate, h0.2 r0 hr0,
            hcolsrest, List.sum_cons]
        · simp only [List.length_append, List.length_replicate,
            hrest.2 r0 hr0, hA, List.sum_cons]

theorem blockDiag_entry (ms : List (Mat α)) (N : Nat) (Ks : List Nat)
    (hN : 0 < N) (hlen : Ks.length = ms.length)
    (hdim : ∀ i, i < ms.length → Dims (ms.getD i []) N (Ks.getD i 0)) :
    ∀ i, i < ms.length →
      (∀ r c, r < N → c < Ks.getD i 0 →
        entryM (blockDiagL ms) (i * N + r) ((Ks.take i).sum + c) =
          entryM (ms.getD i []) r c) ∧
      (∀ p c, c < Ks.getD i 0 → (p < i * N ∨ (i + 1) * N ≤ p) →
        entryM (blockDiagL ms) p ((Ks.take i).sum + c) = 0) := by
  induction ms generalizing Ks with
  | nil => intro i hi; exact absurd hi (by simp)
  | cons A rest ih =>
    rcases Ks with _ | ⟨k, ks⟩
    · simp at hlen
    intro i hi
    have h0 := hdim 0 (by simp)
    simp only [List.getD_cons_zero] at h0
    have hdrest : ∀ j, j < rest.length → Dims (rest.getD j []) N (ks.getD j 0) := by
      intro j hj
      have := hdim (j + 1) (by simpa using Nat.succ_lt_succ hj)
      simpa using this
    have hlenrest : ks.length = rest.length := by simpa using hlen
    have hcolsrest : totalColsOf rest = ks.sum :=
      totalColsOf_eq rest N ks hN hlenrest hdrest
    have hA : colsOf A = k := colsOf_eq A N k h0 hN
    have hrestd := blockDiag_dims rest N ks hN hlenrest hdrest
    cases i with
    | zero =>
      constructor
      · intro r c hr hc
        simp only [List.getD_cons_zero, List.take_zero, List.sum_nil,
          Nat.zero_mul, Nat.zero_add]
        unfold entryM blockDiagL
        rw [List.getD_append _ _ _ _ (by simpa [h0.1] using hr),
          getD_map_lt _ _ _ _ [] (by simpa [h0.1] using hr),
          List.getD_append _ _ _ _ (by
            rw [h0.2 (A.getD r []) (getD_mem_of_lt A r [] (by simpa [h0.1] using hr))]
            exact hc)]
      · intro p c hc hp
        simp only [List.getD_cons_zero] at hc
        simp only [List.take_zero, List.sum_nil, Nat.zero_add]
        rcases hp with hp | hp
        · omega
        unfold entryM blockDiagL
        have hpge : N ≤ p := by omega
        by_cases hbig : p < N + rest.length * N
        · rw [List.getD_append_right _ _ _ _ (by
              simpa [List.length_map, h0.1] using hpge)]
          rw [getD_map_lt _ _ _ _ [] (by
              simp only [List.length_map, h0.1, hrestd.1]
              omega)]
          rw [List.getD_append _ _ _ _ (by simpa [List.length_replicate, hA] using hc)]
          exact getD_replicate_zero _ _
        · have hout : (A.map (fun r => r ++ List.replicate (totalColsOf rest) (0 : α))
              ++ (blockDiagL rest).map fun r =>
                List.replicate (colsOf A) (0 : α) ++ r).length ≤ p := by
            simp only [List.length_append, List.length_map, h0.1, hrestd.1]
            omega
          rw [List.getD_eq_default _ [] hout]
          simp
    | succ j =>
      have hj : j < rest.length := by simpa using hi
      have IH := ih ks hlenrest hdrest j hj
      constructor
      · intro r c hr hc
        simp only [List.getD_cons_succ] at hc ⊢
        have hrow : (j + 1) * N + r = N + (j * N + r) := by ring
        have hcol : ((k :: ks).take (j + 1)).sum + c = k + ((ks.take j).sum + c) := by
          rw [List.take_succ_cons, List.sum_cons]
          omega
        rw [hrow, hcol]
        unfold entryM blockDiagL
        rw [List.getD_append_right _ _ _ _ (by simp [List.length_map, h0.1])]
        simp only [List.length_map, h0.1, Nat.add_sub_cancel_left]
        rw [getD_map_lt _ _ _ _ [] (by
            rw [hrestd.1]
            calc j * N + r < j * N + N := by omega
            _ ≤ rest.length * N := by
              have : j + 1 ≤ rest.length := hj
              calc j * N + N = (j + 1) * N := by ring
              _ ≤ rest.length * N := Nat.mul_le_mul_right N this)]
        rw [List.getD_append_right _ _ _ _ (by simp [List.length_replicate, hA])]
        simp only [List.length_replicate, hA, Nat.add_sub_cancel_left]
        exact IH.1 r c hr hc
      · intro p c hc hp
        simp only [List.getD_cons_succ] at hc
        have hcol : ((k :: ks).take (j + 1)).sum + c = k + ((ks.take j).sum + c) := by
          rw [List.take_succ_cons, List.sum_cons]
          omega
        rw [hcol]
        unfold entryM blockDiagL
        by_cases hpN : p < N
        · rw [List.getD_append _ _ _ _ (by simpa [List.length_map, h0.1] using hpN),
            getD_map_lt _ _ _ _ [] (by simpa [h0.1] using hpN)]
          rw [List.getD_append_right _ _ _ _ (by
              rw [h0.2 (A.getD p []) (getD_mem_of_lt A p [] (by simpa [h0.1] using hpN))]
              omega)]
          rw [h0.2 (A.getD p []) (getD_mem_of_lt A p [] (by simpa [h0.1] using hpN))]
          have hin : k + ((ks.take j).sum + c) - k = (ks.take j).sum + c := by omega
          rw [hin]
          have hlt : (ks.take j).sum + c < totalColsOf rest := by
            rw [hcolsrest]
            have hsplit := List.sum_take_add_sum_drop ks j
            have hdrop : ks.drop j = ks[j] :: ks.drop (j + 1) :=
              List.drop_eq_getElem_cons (by omega)
            have hgetD : ks.getD j 0 = ks[j] := List.getD_eq_getElem ks 0 (by omega)
            have : ks[j] ≤ (ks.drop j).sum := by
              rw [hdrop, List.sum_cons]
              omega
            omega
          exact getD_replicate_lt _ _ _ _ hlt
        · by_cases hbig : p < N + rest.length * N
          · rw [List.getD_append_right _ _ _ _ (by
                simp only [List.length_map, h0.1]
                omega)]
            rw [getD_map_lt _ _ _ _ [] (by
                simp only [List.length_map, h0.1, hrestd.1]
                omega)]
            rw [List.getD_append_right _ _ _ _ (by simp [List.length_replicate, hA])]
            simp only [List.length_replicate, hA, Nat.add_sub_cancel_left,
              List.length_map, h0.1]
            refine IH.2 (p - N) c hc ?_
            rcases hp with hp | hp
            · left
              have : (j + 1) * N = N + j * N := by ring
              omega
            · right
              have : (j + 1 + 1) * N = N + (j + 1) * N := by ring
              omega
          · have hout : (A.map (fun r => r ++ List.replicate (totalColsOf rest) (0 : α))
                ++ (blockDiagL rest).map fun r =>
                  List.replicate (colsOf A) (0 : α) ++ r).length ≤ p := by
              simp only [List.length_append, List.length_map, h0.1, hrestd.1]
              omega
            rw [List.getD_eq_default _ [] hout]
            simp

end BlockDiagLemmas

/-- Claim C4: for every equation pool built from `G` equations with `N`
observations and `K_i` regressors each, the block design matrix
`sp_exog` is `(G * N) × (sum K)`; equation `i`'s block occupies columns
`[sum of K_j for j < i, sum for j <= i)` and rows `[i * N, (i + 1) * N)`,
reproducing equation `i`'s regressor matrix there, and every entry of that
column block outside that row range is zero; placement follows the input
equation order. -/
theorem claim_C4_block_placement (sys : List (Equation ℚ)) (N : Nat)
    (Ks : List Nat) (st : SysModelData ℚ) (hN : 0 < N)
    (hlen : Ks.length = sys.length)
    (hdim : ∀ i, i < sys.length → Dims (sys.getD i default).exog N (Ks.getD i 0))
    (h : sysModelInit sys = .ok st) :
    Dims st.sp_exog (sys.length * N) Ks.sum ∧
    ∀ i, i < sys.length →
      (∀ r c, r < N → c < Ks.getD i 0 →
        entryM st.sp_exog (i * N + r) ((Ks.take i).sum + c) =
          entryM (sys.getD i default).exog r c) ∧
      (∀ p c, c < Ks.getD i 0 → (p < i * N ∨ (i + 1) * N ≤ p) →
        entryM st.sp_exog p ((Ks.take i).sum + c) = 0) := by
  obtain ⟨e0, rest, rfl⟩ : ∃ e0 rest, sys = e0 :: rest := by
    cases sys with
    | nil => exact absurd h (by simp [sysModelInit])
    | cons e0 rest => exact ⟨e0, rest, rfl⟩
  have hsp : st.sp_exog = blockDiagL ((e0 :: rest).map Equation.exog) := by
    unfold sysModelInit at h
    simp only [Except.ok.injEq] at h
    rw [← h]
  have hmlen : ((e0 :: rest).map Equation.exog).length = (e0 :: rest).length :=
    List.length_map _ _
  have hdim' : ∀ i, i < ((e0 :: rest).map Equation.exog).length →
      Dims (((e0 :: rest).map Equation.exog).getD i []) N (Ks.getD i 0) := by
    intro i hi
    rw [getD_map_lt Equation.exog _ i [] default (by simpa using hi)]
    exact hdim i (by simpa using hi)
  have hd := blockDiag_dims ((e0 :: rest).map Equation.exog) N Ks hN
    (by rw [hmlen]; exact hlen) hdim'
  have he := blockDiag_entry ((e0 :: rest).map Equation.exog) N Ks hN
    (by rw [hmlen]; exact hlen) hdim'
  rw [hsp]
  constructor
  · rw [hmlen] at hd
    exact hd
  · intro i hi
    have := he i (by simpa using hi)
    refine ⟨fun r c hr hc => ?_, this.2⟩
    rw [this.1 r c hr hc,
      getD_map_lt Equation.exog _ i [] default (by simpa using hi)]

theorem claim_C4_witness :
    (Dims
        (match sysModelInit [(⟨[1, 2], [[10], [20]]⟩ : Equation ℚ),
            ⟨[3, 4], [[1, 2], [3, 4]]⟩] with
          | .ok st => st.sp_exog
          | .error _ => []) (2 * 2) ([1, 2].sum)) ∧
    entryM
        (match sysModelInit [(⟨[1, 2], [[10], [20]]⟩ : Equation ℚ),
            ⟨[3, 4], [[1, 2], [3, 4]]⟩] with
          | .ok st => st.sp_exog
          | .error _ => []) 3 2 = 4 := by
  have := claim_C4_block_placement
    [(⟨[1, 2], [[10], [20]]⟩ : Equation ℚ), ⟨[3, 4], [[1, 2], [3, 4]]⟩] 2
    [1, 2] _ (by decide) (by decide)
    (by
      intro i hi
      have hi2 : i < 2 := by simpa using hi
      interval_cases i
      · exact ⟨by decide, by decide⟩
      · exact ⟨by decide, by decide⟩)
    rfl
  refine ⟨this.1, ?_⟩
  have h2 := (this.2 1 (by decide)).1 1 1 (by decide) (by decide)
  simpa using h2

section BridgeLemmas

open Matrix

variable {α : Type} [CommRing α]

theorem dotL_eq_sum (k : Nat) : ∀ xs ys : List α, xs.length = k →
    ys.length = k → dotL xs ys = ∑ l : Fin k, xs.getD l.1 0 * ys.getD l.1 0 := by
  induction k with
  | zero =>
    intro xs ys hx hy
    rw [List.length_eq_zero] at hx hy
    subst hx; subst hy
    simp [dotL]
  | succ k ih =>
    intro xs ys hx hy
    rcases xs with _ | ⟨x, xs⟩
    · simp at hx
    rcases ys with _ | ⟨y, ys⟩
    · simp at hy
    have hstep : dotL (x :: xs) (y :: ys) = x * y + dotL xs ys := by
      simp [dotL]
    rw [hstep, ih xs ys (by simpa using hx) (by simpa using hy),
      Fin.sum_univ_succ]
    simp [List.getD_cons_succ]

theorem dims_matMul (A B : Mat α) (m k n : Nat) (hA : Dims A m k)
    (hB : Dims B k n) (hk : 0 < k) : Dims (matMul A B) m n := by
  constructor
  · unfold matMul
    rw [List.length_map, hA.1]
  · intro r hr
    unfold matMul at hr
    obtain ⟨r0, _, rfl⟩ := List.mem_map.mp hr
    rw [List.length_map]
    unfold transposeL
    rw [List.length_map, List.length_range, colsOf_eq B k n hB hk]

theorem dims_transposeL (A : Mat α) (m n : Nat) (hA : Dims A m n)
    (hm : 0 < m) : Dims (transposeL A) n m := by
  constructor
  · unfold transposeL
    rw [List.length_map, List.length_range, colsOf_eq A m n hA hm]
  · intro r hr
    unfold transposeL at hr
    obtain ⟨j, _, rfl⟩ := List.mem_map.mp hr
    rw [List.length_map, hA.1]

theorem entryM_matMul (A B : Mat α) (m k n : Nat) (hA : Dims A m k)
    (hB : Dims B k n) (hk : 0 < k) (i j : Nat) (hi : i < m) (hj : j < n) :
    entryM (matMul A B) i j = ∑ l : Fin k, entryM A i l.1 * entryM B l.1 j := by
  unfold entryM matMul
  rw [getD_map_lt _ A i [] [] (by rw [hA.1]; exact hi)]
  have hT : (transposeL B).length = n := by
    unfold transposeL
    rw [List.length_map, List.length_range, colsOf_eq B k n hB hk]
  rw [getD_map_lt _ (transposeL B) j 0 [] (by rw [hT]; exact hj)]
  have hTj : (transposeL B).getD j [] = B.map fun r => r.getD j 0 := by
    unfold transposeL
    rw [getD_map_lt _ _ j [] 0
        (by rw [List.length_range, colsOf_eq B k n hB hk]; exact hj),
      getD_range_lt _ _ _ (by rw [colsOf_eq B k n hB hk]; exact hj)]
  rw [hTj]
  rw [dotL_eq_sum k (A.getD i []) (B.map fun r => r.getD j 0)
    (hA.2 _ (getD_mem_of_lt A i [] (by rw [hA.1]; exact hi)))
    (by rw [List.length_map, hB.1])]
  refine Finset.sum_congr rfl fun l _ => ?_
  congr 1
  rw [getD_map_lt _ B l.1 0 [] (by rw [hB.1]; exact l.2)]

theorem entryM_transposeL (A : Mat α) (m n : Nat) (hA : Dims A m n)
    (hm : 0 < m) (i j : Nat) (hi : i < n) (hj : j < m) :
    entryM (transposeL A) i j = entryM A j i := by
  unfold entryM transposeL
  rw [getD_map_lt _ _ i [] 0
      (by rw [List.length_range, colsOf_eq A m n hA hm]; exact hi),
    getD_range_lt _ _ _ (by rw [colsOf_eq A m n hA hm]; exact hi),
    getD_map_lt _ A j 0 [] (by rw [hA.1]; exact hj)]

theorem toMat_matMul (A B : Mat α) (m k n : Nat) (hA : Dims A m k)
    (hB : Dims B k n) (hk : 0 < k) :
    toMat (matMul A B) m n = toMat A m k * toMat B k n := by
  ext i j
  rw [Matrix.mul_apply]
  show entryM (matMul A B) i.1 j.1 = _
  rw [entryM_matMul A B m k n hA hB hk i.1 j.1 i.2 j.2]
  rfl

theorem toMat_transposeL (A : Mat α) (m n : Nat) (hA : Dims A m n)
    (hm : 0 < m) : toMat (transposeL A) n m = (toMat A m n)ᵀ := by
  ext i j
  show entryM (transposeL A) i.1 j.1 = entryM A j.1 i.1
  exact entryM_transposeL A m n hA hm i.1 j.1 i.2 j.2

theorem toMat_inj (A B : Mat α) (m n : Nat) (hA : Dims A m n)
    (hB : Dims B m n) (h : toMat A m n = toMat B m n) : A = B := by
  apply List.ext_getElem (by rw [hA.1, hB.1])
  intro i h1 h2
  apply List.ext_getElem
  · rw [hA.2 _ (List.getElem_mem h1), hB.2 _ (List.getElem_mem h2)]
  · intro j hj1 hj2
    have hi : i < m := by rw [← hA.1]; exact h1
    have hjn : j < n := by
      rw [← hA.2 _ (List.getElem_mem h1)]
      exact hj1
    have he := congrFun (congrFun h ⟨i, hi⟩) ⟨j, hjn⟩
    show A[i][j] = B[i][j]
    have eA : entryM A i j = A[i][j] := by
      unfold entryM
      rw [List.getD_eq_getElem A [] h1, List.getD_eq_getElem _ 0 hj1]
    have eB : entryM B i j = B[i][j] := by
      unfold entryM
      rw [List.getD_eq_getElem B [] h2, List.getD_eq_getElem _ 0 hj2]
    rw [← eA, ← eB]
    exact he

theorem mpmat_unique {m n : Nat} (A : Matrix (Fin m) (Fin n) α)
    (P Q : Matrix (Fin n) (Fin m) α) (hP : MPMat A P) (hQ : MPMat A Q) :
    P = Q := by
  obtain ⟨hP1, hP2, hP3, hP4⟩ := hP
  obtain ⟨hQ1, hQ2, hQ3, hQ4⟩ := hQ
  have hAP : A * P = A * Q := by
    calc A * P = A * Q * A * P := by rw [hQ1]
    _ = (A * Q) * (A * P) := by rw [Matrix.mul_assoc (A * Q) A P]
    _ = (A * Q)ᵀ * (A * P)ᵀ := by rw [hQ3, hP3]
    _ = Qᵀ * (Aᵀ * (Pᵀ * Aᵀ)) := by
        simp only [Matrix.transpose_mul, Matrix.mul_assoc]
    _ = Qᵀ * (A * P * A)ᵀ := by
        simp only [Matrix.transpose_mul, Matrix.mul_assoc]
    _ = Qᵀ * Aᵀ := by rw [hP1]
    _ = (A * Q)ᵀ := by rw [Matrix.transpose_mul]
    _ = A * Q := hQ3
  have hPA : P * A = Q * A := by
    calc P * A = P * (A * Q * A) := by rw [hQ1]
    _ = (P * (A * Q)) * A := by rw [← Matrix.mul_assoc]
    _ = ((P * A) * Q) * A := by rw [← Matrix.mul_assoc]
    _ = (P * A) * (Q * A) := by rw [Matrix.mul_assoc (P * A) Q A]
    _ = (P * A)ᵀ * (Q * A)ᵀ := by rw [hP4, hQ4]
    _ = Aᵀ * (Pᵀ * (Aᵀ * Qᵀ)) := by
        simp only [Matrix.transpose_mul, Matrix.mul_assoc]
    _ = (A * P * A)ᵀ * Qᵀ := by
        simp only [Matrix.transpose_mul, Matrix.mul_assoc]
    _ = Aᵀ * Qᵀ := by rw [hP1]
    _ = (Q * A)ᵀ := by rw [Matrix.transpose_mul]
    _ = Q * A := hQ4
  calc P = P * A * P := hP2.symm
  _ = Q * A * P := by rw [hPA]
  _ = Q * (A * P) := by rw [Matrix.mul_assoc]
  _ = Q * (A * Q) := by rw [hAP]
  _ = Q * A * Q := by rw [← Matrix.mul_assoc]
  _ = Q := hQ2

theorem isPinv_toMat (A P : Mat α) (m n : Nat) (hA : Dims A m n)
    (hP : Dims P n m) (hm : 0 < m) (hn : 0 < n) (h : IsPinv A P) :
    MPMat (toMat A m n) (toMat P n m) := by
  obtain ⟨e1, e2, e3, e4⟩ := h
  have dAP : Dims (matMul A P) m m := dims_matMul A P m n m hA hP hn
  have dPA : Dims (matMul P A) n n := dims_matMul P A n m n hP hA hm
  refine ⟨?_, ?_, ?_, ?_⟩
  · have := congrArg (fun X => toMat X m n) e1
    simp only at this
    rw [toMat_matMul (matMul A P) A m m n dAP hA hm,
      toMat_matMul A P m n m hA hP hn] at this
    exact this
  · have := congrArg (fun X => toMat X n m) e2
    simp only at this
    rw [toMat_matMul (matMul P A) P n n m dPA hP hn,
      toMat_matMul P A n m n hP hA hm] at this
    exact this
  · have := congrArg (fun X => toMat X m m) e3
    simp only at this
    rw [toMat_transposeL (matMul A P) m m dAP hm,
      toMat_matMul A P m n m hA hP hn] at this
    exact this
  · have := congrArg (fun X => toMat X n n) e4
    simp only at this
    rw [toMat_transposeL (matMul P A) n n dPA hn,
      toMat_matMul P A n m n hP hA hm] at this
    exact this

theorem isPinv_unique (A P Q : Mat α) (m n : Nat) (hA : Dims A m n)
    (hP : Dims P n m) (hQ : Dims Q n m) (hm : 0 < m) (hn : 0 < n)
    (h1 : IsPinv A P) (h2 : IsPinv A Q) : P = Q :=
  toMat_inj P Q n m hP hQ
    (mpmat_unique (toMat A m n) (toMat P n m) (toMat Q n m)
      (isPinv_toMat A P m n hA hP hm hn h1)
      (isPinv_toMat A Q m n hA hQ hm hn h2))

end BridgeLemmas

/-- Claim C1: for every constructed GLS model, `fit()` returns parameters
equal to `pinv(wexog) @ wendog` and parameter covariance equal to
`pinv(wexog) @ pinv(wexog).T`, where `wexog`/`wendog` are the whitened
block design and whitened stacked response computed at construction.
`P` ranges over all matrices satisfying the Moore-Penrose equations for
`wexog` (which determine `np.linalg.pinv(wexog)` uniquely). -/
theorem claim_C1_fit_formula (sys : List (Equation ℚ))
    (si : Option (PyVal ℚ)) (chol pinvW P : Mat ℚ) {st : SysGLSData ℚ}
    (m n : Nat) (h : sysGLSInit sys si chol pinvW = .ok st)
    (hdw : Dims st.wexog m n) (hm : 0 < m) (hn : 0 < n)
    (hdP : Dims st.pinv_wexog n m) (hdP' : Dims P n m)
    (hpw : IsPinv st.wexog st.pinv_wexog) (hP : IsPinv st.wexog P) :
    st.wexog = whitenL st.cholsigmainv st.nobs st.sp_exog ∧
    st.wendog = whitenL st.cholsigmainv st.nobs (reshapeNeg1_1 st.endog) ∧
    (sysGLSFit st).params = matMul P st.wendog ∧
    (sysGLSFit st).normalized_cov_params = matMul P (transposeL P) := by
  have hPeq : P = st.pinv_wexog :=
    isPinv_unique st.wexog P st.pinv_wexog m n hdw hdP' hdP hm hn hP hpw
  obtain ⟨e0, rest, sg, rfl, hres, hst⟩ :=
    sysGLSInit_ok sys si chol pinvW st h
  subst hst
  refine ⟨rfl, rfl, ?_, ?_⟩
  · rw [hPeq]
    rfl
  · rw [hPeq]
    rfl

theorem claim_C1_witness :
    IsPinv (whitenL (transposeL [[1]]) 2 (blockDiagL [[[(1 : ℚ)], [0]]]))
        [[1, 0]] ∧
    ∃ st : SysGLSData ℚ,
      sysGLSInit [(⟨[1, 0], [[1], [0]]⟩ : Equation ℚ)] none [[1]] [[1, 0]] =
        .ok st ∧
      (sysGLSFit st).params = matMul [[1, 0]] st.wendog ∧
      (sysGLSFit st).normalized_cov_params =
        matMul [[1, 0]] (transposeL [[(1 : ℚ), 0]]) := by
  constructor
  · norm_num [IsPinv, whitenL, matMul, transposeL, dotL, colsOf, entryM,
      kronL, eyeL, diagL, onesL, blockDiagL, totalColsOf, List.range_succ]
  refine ⟨_, rfl, ?_, ?_⟩
  · exact (claim_C1_fit_formula [(⟨[1, 0], [[1], [0]]⟩ : Equation ℚ)] none
      [[1]] [[1, 0]] [[1, 0]] 2 1 rfl
      (by norm_num [Dims, whitenL, matMul, transposeL, dotL, colsOf, kronL,
        eyeL, diagL, onesL, blockDiagL, totalColsOf, List.range_succ])
      (by decide) (by decide) (by decide) (by decide)
      (by norm_num [IsPinv, whitenL, matMul, transposeL, dotL, colsOf,
        entryM, kronL, eyeL, diagL, onesL, blockDiagL, totalColsOf,
        List.range_succ])
      (by norm_num [IsPinv, whitenL, matMul, transposeL, dotL, colsOf,
        entryM, kronL, eyeL, diagL, onesL, blockDiagL, totalColsOf,
        List.range_succ])).2.2.1
  · exact (claim_C1_fit_formula [(⟨[1, 0], [[1], [0]]⟩ : Equation ℚ)] none
      [[1]] [[1, 0]] [[1, 0]] 2 1 rfl
      (by norm_num [Dims, whitenL, matMul, transposeL, dotL, colsOf, kronL,
        eyeL, diagL, onesL, blockDiagL, totalColsOf, List.range_succ])
      (by decide) (by decide) (by decide) (by decide)
      (by norm_num [IsPinv, whitenL, matMul, transposeL, dotL, colsOf,
        entryM, kronL, eyeL, diagL, onesL, blockDiagL, totalColsOf,
        List.range_succ])
      (by norm_num [IsPinv, whitenL, matMul, transposeL, dotL, colsOf,
        entryM, kronL, eyeL, diagL, onesL, blockDiagL, totalColsOf,
        List.range_succ])).2.2.2

section KronLemmas

variable {α : Type} [CommRing α]

theorem flatten_uniform_length {β : Type} (L : List (List β)) (c : Nat)
    (hu : ∀ x ∈ L, x.length = c) : L.flatten.length = L.length * c := by
  induction L with
  | nil => simp
  | cons x L ih =>
    simp only [List.flatten_cons, List.length_append, List.length_cons]
    rw [hu x (List.mem_cons_self x L),
      ih fun y hy => hu y (List.mem_cons_of_mem x hy)]
    ring

theorem getD_flatten_uniform {β : Type} (L : List (List β)) (c : Nat)
    (hu : ∀ x ∈ L, x.length = c) (i t : Nat) (hi : i < L.length) (ht : t < c)
    (d : β) : L.flatten.getD (i * c + t) d = (L.getD i []).getD t d := by
  induction L generalizing i with
  | nil => simp at hi
  | cons x L ih =>
    have hx : x.length = c := hu x (List.mem_cons_self x L)
    cases i with
    | zero =>
      simp only [List.flatten_cons, Nat.zero_mul, Nat.zero_add,
        List.getD_cons_zero]
      exact List.getD_append _ _ _ _ (by rw [hx]; exact ht)
    | succ j =>
      have hidx : (j + 1) * c + t = c + (j * c + t) := by ring
      simp only [List.flatten_cons, List.getD_cons_succ]
      rw [hidx, List.getD_append_right _ _ _ _ (by rw [hx]; omega), hx,
        Nat.add_sub_cancel_left]
      exact ih (fun y hy => hu y (List.mem_cons_of_mem x hy)) j
        (by simpa using hi)

theorem dims_kronL (A B : Mat α) (a b c d : Nat) (hA : Dims A a b)
    (hB : Dims B c d) : Dims (kronL A B) (a * c) (b * d) := by
  constructor
  · unfold kronL
    rw [flatten_uniform_length _ c (by
      intro x hx
      obtain ⟨ar, _, rfl⟩ := List.mem_map.mp hx
      rw [List.length_map, hB.1]), List.length_map, hA.1]
  · intro r hr
    unfold kronL at hr
    rw [List.mem_flatten] at hr
    obtain ⟨chunk, hchunk, hrchunk⟩ := hr
    obtain ⟨ar, har, rfl⟩ := List.mem_map.mp hchunk
    obtain ⟨br, hbr, rfl⟩ := List.mem_map.mp hrchunk
    rw [flatten_uniform_length _ d (by
      intro x hx
      obtain ⟨v, _, rfl⟩ := List.mem_map.mp hx
      rw [List.length_map, hB.2 br hbr]), List.length_map, hA.2 ar har]

theorem entryM_kronL (A B : Mat α) (a b c d : Nat) (hA : Dims A a b)
    (hB : Dims B c d) (i j t s : Nat) (hi : i < a) (hj : j < b) (ht : t < c)
    (hs : s < d) :
    entryM (kronL A B) (i * c + t) (j * d + s) =
      entryM A i j * entryM B t s := by
  unfold entryM kronL
  rw [getD_flatten_uniform _ c (by
      intro x hx
      obtain ⟨ar, _, rfl⟩ := List.mem_map.mp hx
      rw [List.length_map, hB.1])
    i t (by rw [List.length_map, hA.1]; exact hi) (by exact ht)]
  rw [getD_map_lt _ A i [] [] (by rw [hA.1]; exact hi)]
  rw [getD_map_lt _ B t [] [] (by rw [hB.1]; exact ht)]
  rw [getD_flatten_uniform _ d (by
      intro x hx
      obtain ⟨v, _, rfl⟩ := List.mem_map.mp hx
      rw [List.length_map,
        hB.2 _ (getD_mem_of_lt B t [] (by rw [hB.1]; exact ht))])
    j s (by
      rw [List.length_map,
        hA.2 _ (getD_mem_of_lt A i [] (by rw [hA.1]; exact hi))]
      exact hj) hs]
  rw [getD_map_lt _ (A.getD i []) j [] 0 (by
    rw [hA.2 _ (getD_mem_of_lt A i [] (by rw [hA.1]; exact hi))]
    exact hj)]
  rw [getD_map_lt _ (B.getD t []) s 0 0 (by
    rw [hB.2 _ (getD_mem_of_lt B t [] (by rw [hB.1]; exact ht))]
    exact hs)]

theorem dims_diagL (v : List α) : Dims (diagL v) v.length v.length := by
  constructor
  · simp [diagL]
  · intro r hr
    unfold diagL at hr
    obtain ⟨i, _, rfl⟩ := List.mem_map.mp hr
    simp

theorem dims_eyeL (n : Nat) : Dims (eyeL n : Mat α) n n := by
  have := dims_diagL (onesL n : List α)
  simpa [onesL] using this

theorem entryM_eyeL (n i j : Nat) (hi : i < n) (hj : j < n) :
    entryM (eyeL n : Mat α) i j = if i = j then 1 else 0 := by
  unfold entryM eyeL diagL onesL
  rw [getD_map_lt _ _ i [] 0 (by simpa using hi)]
  rw [getD_range_lt _ _ _ (by simpa using hi)]
  rw [getD_map_lt _ _ j 0 0 (by simpa using hj)]
  rw [getD_range_lt _ _ _ (by simpa using hj)]
  by_cases hij : i = j
  · rw [if_pos hij, if_pos hij, getD_replicate_lt _ _ _ _ hi]
  · rw [if_neg hij, if_neg hij]

end KronLemmas

/-- Claim C3 as amended: the whitening operator the constructed model
applies is the Kronecker product of `Lᵀ` with the `N × N` identity, where
`L` is the lower-triangular Cholesky factor satisfying `L @ L.T = pinv` of
the resolved covariance (the claim's `Lᵀ @ L = pinv` direction is wrong,
see the counterexample); consequently the operator combines values only
across equations at the same observation index: every entry pairing two
different observation indices is zero. -/
theorem claim_C3_whitening_operator (sys : List (Equation ℚ))
    (si : Option (PyVal ℚ)) (chol pinvW P : Mat ℚ) {st : SysGLSData ℚ}
    (G : Nat) (h : sysGLSInit sys si chol pinvW = .ok st)
    (hG : sys.length = G) (hP : IsPinv st.sigma P)
    (hchol : CholFac chol P G) :
    whitenOpL st = kronL (transposeL chol) (eyeL st.nobs) ∧
    matMul chol (transposeL chol) = P ∧
    ∀ g g2 t u, g < G → g2 < G → t < st.nobs → u < st.nobs → t ≠ u →
      entryM (whitenOpL st) (g * st.nobs + t) (g2 * st.nobs + u) = 0 := by
  have hGpos : 0 < G := by
    obtain ⟨e0, rest, sg0, hsys, -, -⟩ := sysGLSInit_ok sys si chol pinvW st h
    rw [hsys] at hG
    simp at hG
    omega
  have hdchol : Dims chol G G := hchol.1
  have hdcholT : Dims (transposeL chol) G G :=
    dims_transposeL chol G G hdchol hGpos
  obtain ⟨e0, rest, sg, rfl, hres, hst⟩ := sysGLSInit_ok sys si chol pinvW st h
  subst hst
  refine ⟨rfl, hchol.2.2.2, ?_⟩
  intro g g2 t u hg hg2 ht hu htu
  show entryM (kronL (transposeL chol) (eyeL e0.endog.length))
    (g * e0.endog.length + t) (g2 * e0.endog.length + u) = 0
  rw [entryM_kronL (transposeL chol) (eyeL e0.endog.length) G G
    e0.endog.length e0.endog.length hdcholT (dims_eyeL _) g g2 t u hg hg2
    ht hu]
  rw [entryM_eyeL _ t u ht hu, if_neg htu, mul_zero]

/-- Claim C3, counterexample: with resolved covariance
`[[2, -1], [-1, 1]]`, its pseudo-inverse is `[[1, 1], [1, 2]]` with
Cholesky factor `chol = [[1, 0], [1, 1]]` (`chol @ chol.T = pinv`), and the
model's whitening operator `kron(chol.T, eye(1))` is not of the shape the
claim states: no `2 × 2` matrix `L` with `L.T @ L = pinv` has
`kron(L.T, eye(1))` equal to the operator. -/
theorem claim_C3_counterexample :
    IsPinv ([[2, -1], [-1, 1]] : Mat ℚ) [[1, 1], [1, 2]] ∧
    CholFac [[1, 0], [1, 1]] [[(1 : ℚ), 1], [1, 2]] 2 ∧
    ¬ ∃ L : Mat ℚ, Dims L 2 2 ∧
        matMul (transposeL L) L = [[1, 1], [1, 2]] ∧
        (sysGLSInit [(⟨[1], [[1]]⟩ : Equation ℚ), ⟨[1], [[1]]⟩]
            (some (.arr (.mat [[2, -1], [-1, 1]])))
            [[1, 0], [1, 1]] [[1, -1], [0, 1]]).map whitenOpL =
          .ok (kronL (transposeL L) (eyeL 1)) := by
  refine ⟨?_, ?_, ?_⟩
  · norm_num [IsPinv, matMul, transposeL, dotL, colsOf, List.range_succ]
  · refine ⟨⟨by decide, by decide⟩, ?_, ?_, ?_⟩
    · intro i hi j hj hij
      interval_cases i <;> interval_cases j <;> simp_all [entryM]
    · intro i hi
      interval_cases i <;> norm_num [entryM]
    · norm_num [matMul, transposeL, dotL, colsOf, List.range_succ]
  · rintro ⟨L, ⟨hL1, hL2⟩, hLL, hW⟩
    obtain ⟨r0, r1, rfl⟩ : ∃ r0 r1, L = [r0, r1] := by
      rcases L with _ | ⟨r0, _ | ⟨r1, _ | ⟨r2, L⟩⟩⟩ <;> simp at hL1
      exact ⟨r0, r1, rfl⟩
    obtain ⟨a, b, rfl⟩ : ∃ a b, r0 = [a, b] := by
      have h0 : r0.length = 2 := hL2 r0 (by simp)
      rcases r0 with _ | ⟨a, _ | ⟨b, _ | ⟨z0, r0⟩⟩⟩ <;> simp at h0
      exact ⟨a, b, rfl⟩
    obtain ⟨c, d, rfl⟩ : ∃ c d, r1 = [c, d] := by
      have h1 : r1.length = 2 := hL2 r1 (by simp)
      rcases r1 with _ | ⟨c, _ | ⟨d, _ | ⟨z1, r1⟩⟩⟩ <;> simp at h1
      exact ⟨c, d, rfl⟩
    rw [show (sysGLSInit [(⟨[1], [[1]]⟩ : Equation ℚ), ⟨[1], [[1]]⟩]
        (some (.arr (.mat [[2, -1], [-1, 1]])))
        [[1, 0], [1, 1]] [[1, -1], [0, 1]]).map whitenOpL =
      .ok (kronL (transposeL [[1, 0], [1, 1]]) (eyeL 1)) from rfl] at hW
    simp only [Except.ok.injEq] at hW
    norm_num [kronL, transposeL, eyeL, diagL, onesL, colsOf,
      List.range_succ] at hW
    obtain ⟨⟨ha, hc⟩, hb, hd⟩ := hW
    subst ha; subst hb; subst hc; subst hd
    norm_num [matMul, transposeL, dotL, colsOf, List.range_succ] at hLL

theorem claim_C3_witness :
    CholFac [[1, 0], [1, 1]] [[(1 : ℚ), 1], [1, 2]] 2 ∧
    ∃ st : SysGLSData ℚ,
      sysGLSInit [(⟨[1, 2], [[1], [1]]⟩ : Equation ℚ), ⟨[3, 4], [[1], [1]]⟩]
          (some (.arr (.mat [[2, -1], [-1, 1]]))) [[1, 0], [1, 1]]
          [[1, -1], [0, 1]] = .ok st ∧
      whitenOpL st = kronL (transposeL [[1, 0], [1, 1]]) (eyeL st.nobs) ∧
      entryM (whitenOpL st) (0 * st.nobs + 0) (1 * st.nobs + 1) = 0 := by
  have hcf : CholFac [[1, 0], [1, 1]] [[(1 : ℚ), 1], [1, 2]] 2 := by
    refine ⟨⟨by decide, by decide⟩, ?_, ?_, ?_⟩
    · intro i hi j hj hij
      interval_cases i <;> interval_cases j <;> simp_all [entryM]
    · intro i hi
      interval_cases i <;> norm_num [entryM]
    · norm_num [matMul, transposeL, dotL, colsOf, List.range_succ]
  refine ⟨hcf, _, rfl, ?_, ?_⟩
  · exact (claim_C3_whitening_operator
      [(⟨[1, 2], [[1], [1]]⟩ : Equation ℚ), ⟨[3, 4], [[1], [1]]⟩]
      (some (.arr (.mat [[2, -1], [-1, 1]]))) [[1, 0], [1, 1]]
      [[1, -1], [0, 1]] [[1, 1], [1, 2]] 2 rfl rfl
      (by norm_num [IsPinv, matMul, transposeL, dotL, colsOf,
        List.range_succ])
      hcf).1
  · exact (claim_C3_whitening_operator
      [(⟨[1, 2], [[1], [1]]⟩ : Equation ℚ), ⟨[3, 4], [[1], [1]]⟩]
      (some (.arr (.mat [[2, -1], [-1, 1]]))) [[1, 0], [1, 1]]
      [[1, -1], [0, 1]] [[1, 1], [1, 2]] 2 rfl rfl
      (by norm_num [IsPinv, matMul, transposeL, dotL, colsOf,
        List.range_succ])
      hcf).2.2 0 1 0 1 (by decide) (by decide) (by decide) (by decide)
      (by decide)

section CholeskyLemmas

open Matrix

theorem dims_ofMat {α : Type} [CommRing α] {m n : Nat}
    (M : Matrix (Fin m) (Fin n) α) : Dims (ofMat M) m n := by
  constructor
  · simp [ofMat, List.length_finRange]
  · intro r hr
    obtain ⟨i, _, rfl⟩ := List.mem_map.mp hr
    simp [List.length_finRange]

theorem getD_finRange {m : Nat} (i : Nat) (hi : i < m) (d : Fin m) :
    (List.finRange m).getD i d = ⟨i, hi⟩ := by
  rw [List.getD_eq_getElem _ d (by simpa [List.length_finRange] using hi)]
  apply Fin.ext
  simp [List.getElem_finRange]

theorem entryM_ofMat {α : Type} [CommRing α] {m n : Nat}
    (M : Matrix (Fin m) (Fin n) α) (i j : Nat) (hi : i < m) (hj : j < n) :
    entryM (ofMat M) i j = M ⟨i, hi⟩ ⟨j, hj⟩ := by
  unfold entryM ofMat
  rw [getD_map_lt _ _ i [] ⟨i, hi⟩ (by simpa [List.length_finRange] using hi),
    getD_finRange i hi,
    getD_map_lt _ _ j 0 ⟨j, hj⟩ (by simpa [List.length_finRange] using hj),
    getD_finRange j hj]

theorem toMat_ofMat {α : Type} [CommRing α] {m n : Nat}
    (M : Matrix (Fin m) (Fin n) α) : toMat (ofMat M) m n = M := by
  ext i j
  show entryM (ofMat M) i.1 j.1 = M i j
  rw [entryM_ofMat M i.1 j.1 i.2 j.2]

theorem posDef_of_cholFac (P : Mat ℝ) (G : Nat) (hG : 0 < G)
    (h : choleskyFactorable P G) : (toMat P G G).PosDef := by
  obtain ⟨L, hdL, hlt, hpos, hLL⟩ := h
  set C := toMat L G G with hC
  have hCt : toMat (transposeL L) G G = Cᵀ := toMat_transposeL L G G hdL hG
  have hPS : toMat P G G = C * Cᵀ := by
    have hh := congrArg (fun X => toMat X G G) hLL
    simp only at hh
    rw [toMat_matMul L (transposeL L) G G G hdL
      (dims_transposeL L G G hdL hG) hG, hCt] at hh
    exact hh.symm
  have hCtri : C.BlockTriangular OrderDual.toDual := by
    intro i j hij
    exact hlt i.1 i.2 j.1 j.2 (OrderDual.toDual_lt_toDual.mp hij)
  have hdet : 0 < C.det := by
    rw [det_of_lowerTriangular C hCtri]
    exact Finset.prod_pos fun i _ => hpos i.1 i.2
  rw [hPS]
  constructor
  · show (C * Cᵀ)ᴴ = C * Cᵀ
    rw [conjTranspose_eq_transpose_of_trivial, transpose_mul,
      transpose_transpose]
  · intro x hx
    have h1 : x ⬝ᵥ ((C * Cᵀ) *ᵥ x) = (Cᵀ *ᵥ x) ⬝ᵥ (Cᵀ *ᵥ x) := by
      rw [← mulVec_mulVec x C Cᵀ, dotProduct_mulVec]
      congr 1
      rw [← transpose_transpose C, vecMul_transpose, transpose_transpose]
    have hy0 : Cᵀ *ᵥ x ≠ 0 := by
      intro h0
      have hud : IsUnit (Cᵀ).det := by
        rw [det_transpose]
        exact (isUnit_iff_ne_zero).mpr (ne_of_gt hdet)
      have hinj : Function.Injective (Cᵀ).mulVec :=
        mulVec_injective_iff_isUnit.mpr ((isUnit_iff_isUnit_det _).mpr hud)
      exact hx (hinj (by rw [h0, mulVec_zero]))
    have hnn : 0 ≤ (Cᵀ *ᵥ x) ⬝ᵥ (Cᵀ *ᵥ x) :=
      Finset.sum_nonneg fun i _ => mul_self_nonneg _
    have hne : (Cᵀ *ᵥ x) ⬝ᵥ (Cᵀ *ᵥ x) ≠ 0 := fun hq =>
      hy0 (dotProduct_self_eq_zero.mp hq)
    have : (0 : ℝ) < (Cᵀ *ᵥ x) ⬝ᵥ (Cᵀ *ᵥ x) := lt_of_le_of_ne hnn (Ne.symm hne)
    simpa [h1] using this

set_option maxHeartbeats 1000000 in
theorem cholFac_of_posDef (P : Mat ℝ) (G : Nat) (hG : 0 < G)
    (hd : Dims P G G) (hPD : (toMat P G G).PosDef) :
    choleskyFactorable P G := by
  obtain ⟨G2, rfl⟩ : ∃ G2, G = G2 + 1 := ⟨G - 1, by omega⟩
  set S := toMat P (G2 + 1) (G2 + 1) with hSdef
  have hdeq : (fun a b => instDecidableEq_mathlib a b :
      DecidableEq (Fin (G2 + 1))) = instDecidableEqFin (G2 + 1) :=
    Subsingleton.elim _ _
  set B := @LDL.lowerInv ℝ _ (Fin (G2 + 1))
    (inferInstance : LinearOrder (Fin (G2 + 1)))
    (inferInstance : WellFoundedLT (Fin (G2 + 1)))
    (inferInstance : LocallyFiniteOrderBot (Fin (G2 + 1))) S _ hPD with hB
  set d := @LDL.diagEntries ℝ _ (Fin (G2 + 1))
    (inferInstance : LinearOrder (Fin (G2 + 1)))
    (inferInstance : WellFoundedLT (Fin (G2 + 1)))
    (inferInstance : LocallyFiniteOrderBot (Fin (G2 + 1))) S _ hPD with hdd
  have hinv0 := @LDL.invertibleLowerInv ℝ _ (Fin (G2 + 1))
    (inferInstance : LinearOrder (Fin (G2 + 1)))
    (inferInstance : WellFoundedLT (Fin (G2 + 1)))
    (inferInstance : LocallyFiniteOrderBot (Fin (G2 + 1))) S _ hPD
  rw [hdeq] at hinv0
  letI hinv : Invertible B := hinv0
  have hDdef : @LDL.diag ℝ _ (Fin (G2 + 1))
      (inferInstance : LinearOrder (Fin (G2 + 1)))
      (inferInstance : WellFoundedLT (Fin (G2 + 1)))
      (inferInstance : LocallyFiniteOrderBot (Fin (G2 + 1))) S _ hPD =
      Matrix.diagonal d := by
    rw [hdd]
    unfold LDL.diag
    rw [hdeq]
  have hD := @LDL.diag_eq_lowerInv_conj ℝ _ (Fin (G2 + 1))
    (inferInstance : LinearOrder (Fin (G2 + 1)))
    (inferInstance : WellFoundedLT (Fin (G2 + 1)))
    (inferInstance : LocallyFiniteOrderBot (Fin (G2 + 1))) S _ hPD
  rw [hDdef] at hD
  have hBtri : B.BlockTriangular OrderDual.toDual := by
    intro i j hij
    rw [hB]
    exact @LDL.lowerInv_triangular ℝ _ (Fin (G2 + 1))
      (inferInstance : LinearOrder (Fin (G2 + 1)))
      (inferInstance : WellFoundedLT (Fin (G2 + 1)))
      (inferInstance : LocallyFiniteOrderBot (Fin (G2 + 1))) S _ hPD i j
      (OrderDual.toDual_lt_toDual.mp hij)
  have hL0tri : (B⁻¹).BlockTriangular OrderDual.toDual :=
    blockTriangular_inv_of_blockTriangular hBtri
  have hRconj : Bᴴ = Bᵀ := conjTranspose_eq_transpose_of_trivial B
  have hdecomp : S = B⁻¹ * Matrix.diagonal d * (B⁻¹)ᵀ := by
    have hstep : B⁻¹ * (B * S * Bᴴ) * (B⁻¹)ᵀ = S := by
      have h1 : (B⁻¹)ᵀ = (B⁻¹)ᴴ :=
        (conjTranspose_eq_transpose_of_trivial _).symm
      rw [h1]
      calc B⁻¹ * (B * S * Bᴴ) * (B⁻¹)ᴴ
          = (B⁻¹ * B) * S * (Bᴴ * (B⁻¹)ᴴ) := by
            simp only [Matrix.mul_assoc]
      _ = (B⁻¹ * B) * S * ((B⁻¹ * B)ᴴ) := by rw [conjTranspose_mul]
      _ = S := by
          rw [inv_mul_of_invertible]
          simp
    rw [← hD] at hstep
    exact hstep.symm
  have hdiagpos : ∀ i, 0 < d i := by
    intro i
    have hform : d i = (B i) ⬝ᵥ (S *ᵥ (B i)) := by
      rw [hdd, hB]
      unfold LDL.diagEntries
      rw [EuclideanSpace.inner_piLp_equiv_symm]
      simp
    have hrow : B i ≠ 0 := by
      intro h0
      have hdetz : B.det = 0 :=
        det_eq_zero_of_row_eq_zero i fun j => congrFun h0 j
      have hu : IsUnit B.det := isUnit_det_of_invertible _
      rw [hdetz] at hu
      simpa using hu
    have := hPD.2 (B i) hrow
    rw [hform]
    simpa using this
  set C0 := B⁻¹ * diagonal (fun i => Real.sqrt (d i)) with hC0
  have hC0tri : C0.BlockTriangular OrderDual.toDual :=
    hL0tri.mul (blockTriangular_diagonal _)
  have hCC : C0 * C0ᵀ = S := by
    rw [hC0, transpose_mul, diagonal_transpose]
    calc B⁻¹ * diagonal (fun i => Real.sqrt (d i)) *
        (diagonal (fun i => Real.sqrt (d i)) * (B⁻¹)ᵀ)
        = B⁻¹ * (diagonal (fun i => Real.sqrt (d i)) *
            diagonal (fun i => Real.sqrt (d i))) * (B⁻¹)ᵀ := by
          simp only [Matrix.mul_assoc]
    _ = B⁻¹ * diagonal d * (B⁻¹)ᵀ := by
        rw [diagonal_mul_diagonal]
        have hss : (fun i => Real.sqrt (d i) * Real.sqrt (d i)) = d := by
          funext i
          exact Real.mul_self_sqrt (hdiagpos i).le
        rw [hss]
    _ = S := hdecomp.symm
  have hdetL0 : (B⁻¹).det ≠ 0 := by
    have h1 : B * B⁻¹ = 1 := mul_inv_of_invertible B
    have h2 := congrArg Matrix.det h1
    rw [det_mul, det_one] at h2
    intro h0
    rw [h0, mul_zero] at h2
    norm_num at h2
  have hL0diag : ∀ i, (B⁻¹) i i ≠ 0 := by
    rw [det_of_lowerTriangular (B⁻¹) hL0tri] at hdetL0
    intro i h0
    exact hdetL0 (Finset.prod_eq_zero (Finset.mem_univ i) h0)
  have hC0diag : ∀ i, C0 i i ≠ 0 := by
    intro i
    rw [hC0, mul_diagonal]
    exact mul_ne_zero (hL0diag i) (Real.sqrt_ne_zero'.mpr (hdiagpos i))
  set E := diagonal (fun i : Fin (G2 + 1) =>
    if C0 i i < 0 then (-1 : ℝ) else 1) with hE
  set C := C0 * E with hCdef
  have hEE : E * Eᵀ = 1 := by
    rw [hE, diagonal_transpose, diagonal_mul_diagonal]
    have hone : (fun i => (if C0 i i < 0 then (-1 : ℝ) else 1) *
        (if C0 i i < 0 then (-1 : ℝ) else 1)) =
        fun i : Fin (G2 + 1) => (1 : ℝ) := by
      funext i
      by_cases hneg : C0 i i < 0 <;> simp [hneg]
    rw [hone, diagonal_one]
  have hCtri : C.BlockTriangular OrderDual.toDual :=
    hC0tri.mul (blockTriangular_diagonal _)
  have hCCe : C * Cᵀ = S := by
    rw [hCdef, transpose_mul]
    calc C0 * E * (Eᵀ * C0ᵀ) = C0 * (E * Eᵀ) * C0ᵀ := by
          simp only [Matrix.mul_assoc]
    _ = C0 * C0ᵀ := by rw [hEE, Matrix.mul_one]
    _ = S := hCC
  have hCdiag : ∀ i, 0 < C i i := by
    intro i
    rw [hCdef, mul_diagonal]
    by_cases hneg : C0 i i < 0
    · rw [if_pos hneg]
      nlinarith
    · rw [if_neg hneg, mul_one]
      exact lt_of_le_of_ne (not_lt.mp hneg) (Ne.symm (hC0diag i))
  refine ⟨ofMat C, dims_ofMat C, ?_, ?_, ?_⟩
  · intro i hi j hj hij
    rw [entryM_ofMat C i j hi hj]
    exact hCtri (OrderDual.toDual_lt_toDual.mpr hij)
  · intro i hi
    rw [entryM_ofMat C i i hi hi]
    exact hCdiag ⟨i, hi⟩
  · apply toMat_inj _ P (G2 + 1) (G2 + 1) ?_ hd
    · rw [toMat_matMul (ofMat C) (transposeL (ofMat C)) _ _ _ (dims_ofMat C)
        (dims_transposeL (ofMat C) _ _ (dims_ofMat C) (by omega)) (by omega),
        toMat_transposeL (ofMat C) _ _ (dims_ofMat C) (by omega),
        toMat_ofMat]
      exact hCCe
    · exact dims_matMul _ _ _ _ _ (dims_ofMat C)
        (dims_transposeL (ofMat C) _ _ (dims_ofMat C) (by omega)) (by omega)


/-- Claim C6 as amended: for a resolved covariance `sigma` with
pseudo-inverse `P`, the Cholesky factorization of `P` (the step building
the whitening transform) succeeds exactly when `P` is symmetric positive
definite; on a merely positive semi-definite (singular) `P` the routine
fails (`NumericalError`), see the counterexample. -/
theorem claim_C6_cholesky_iff_posdef (sigma P : Mat ℝ) (G : Nat)
    (hG : 0 < G) (hds : Dims sigma G G) (hd : Dims P G G)
    (hP : IsPinv sigma P) :
    choleskyFactorable P G ↔ (toMat P G G).PosDef :=
  ⟨posDef_of_cholFac P G hG, cholFac_of_posDef P G hG hd⟩

/-- Claim C6, counterexample: the resolved covariance `[[1, 1], [1, 1]]`
has pseudo-inverse `[[1/4, 1/4], [1/4, 1/4]]`, which is symmetric positive
semi-definite, yet no Cholesky factor exists (the factorization the code
invokes fails), contradicting the claim that symmetric positive
semi-definiteness suffices. -/
theorem claim_C6_counterexample :
    IsPinv ([[1, 1], [1, 1]] : Mat ℝ) [[1/4, 1/4], [1/4, 1/4]] ∧
    (toMat ([[1/4, 1/4], [1/4, 1/4]] : Mat ℝ) 2 2).PosSemidef ∧
    ¬ choleskyFactorable ([[1/4, 1/4], [1/4, 1/4]] : Mat ℝ) 2 := by
  refine ⟨?_, ?_, ?_⟩
  · norm_num [IsPinv, matMul, transposeL, dotL, colsOf, List.range_succ]
  · constructor
    · show _ = _
      funext i j
      fin_cases i <;> fin_cases j <;>
        simp [Matrix.conjTranspose_apply, toMat, entryM]
    · intro x
      have hst : star x = x := by simp
      rw [hst]
      show (0 : ℝ) ≤ Matrix.dotProduct x _
      simp only [Matrix.dotProduct, Matrix.mulVec, Fin.sum_univ_two, toMat,
        Matrix.of_apply, entryM]
      norm_num
      nlinarith [sq_nonneg (x 0 + x 1)]
  · rintro ⟨L, hdL, hlt, hpos, hLL⟩
    set C := SysReg.toMat L 2 2 with hC
    have hPS : SysReg.toMat ([[1/4, 1/4], [1/4, 1/4]] : Mat ℝ) 2 2 =
        C * Cᵀ := by
      have hh := congrArg (fun X => SysReg.toMat X 2 2) hLL
      simp only at hh
      rw [toMat_matMul L (transposeL L) 2 2 2 hdL
        (dims_transposeL L 2 2 hdL (by omega)) (by omega),
        toMat_transposeL L 2 2 hdL (by omega)] at hh
      exact hh.symm
    have hdet0 : (SysReg.toMat ([[1/4, 1/4], [1/4, 1/4]] : Mat ℝ) 2 2).det
        = 0 := by
      rw [Matrix.det_fin_two]
      show entryM ([[1/4, 1/4], [1/4, 1/4]] : Mat ℝ) 0 0 *
          entryM ([[1/4, 1/4], [1/4, 1/4]] : Mat ℝ) 1 1 -
        entryM ([[1/4, 1/4], [1/4, 1/4]] : Mat ℝ) 0 1 *
          entryM ([[1/4, 1/4], [1/4, 1/4]] : Mat ℝ) 1 0 = 0
      norm_num [entryM]
    have hdetC : C.det = C 0 0 * C 1 1 := by
      rw [Matrix.det_fin_two]
      have h01 : C 0 1 = 0 := hlt 0 (by omega) 1 (by omega) (by omega)
      rw [h01]
      ring
    have hpos00 : (0 : ℝ) < C 0 0 := hpos 0 (by omega)
    have hpos11 : (0 : ℝ) < C 1 1 := hpos 1 (by omega)
    have : (SysReg.toMat ([[1/4, 1/4], [1/4, 1/4]] : Mat ℝ) 2 2).det =
        C.det * C.det := by
      rw [hPS, Matrix.det_mul, Matrix.det_transpose]
    rw [hdet0, hdetC] at this
    nlinarith [mul_pos hpos00 hpos11]

theorem claim_C6_witness :
    IsPinv ([[1/4, 0], [0, 1]] : Mat ℝ) [[4, 0], [0, 1]] ∧
    (toMat ([[(4 : ℝ), 0], [0, 1]] : Mat ℝ) 2 2).PosDef := by
  have hfac : choleskyFactorable ([[(4 : ℝ), 0], [0, 1]] : Mat ℝ) 2 := by
    refine ⟨[[2, 0], [0, 1]], ⟨by simp, ?_⟩, ?_, ?_, ?_⟩
    · intro r hr
      simp only [List.mem_cons, List.not_mem_nil, or_false] at hr
      rcases hr with rfl | rfl <;> simp
    · intro i hi j hj hij
      interval_cases i <;> interval_cases j <;> norm_num [entryM]
    · intro i hi
      interval_cases i <;> norm_num [entryM]
    · norm_num [matMul, transposeL, dotL, colsOf, List.range_succ]
  refine ⟨?_, ?_⟩
  · norm_num [IsPinv, matMul, transposeL, dotL, colsOf, List.range_succ]
  · exact (claim_C6_cholesky_iff_posdef [[1/4, 0], [0, 1]]
      [[(4 : ℝ), 0], [0, 1]] 2 (by omega)
      (⟨by simp, by
        intro r hr
        simp only [List.mem_cons, List.not_mem_nil, or_false] at hr
        rcases hr with rfl | rfl <;> simp⟩)
      (⟨by simp, by
        intro r hr
        simp only [List.mem_cons, List.not_mem_nil, or_false] at hr
        rcases hr with rfl | rfl <;> simp⟩)
      (by norm_num [IsPinv, matMul, transposeL, dotL, colsOf,
        List.range_succ])).mp hfac

end CholeskyLemmas

section MPLemmas

open Matrix

variable {α : Type} [CommRing α]

theorem mpmat_orthmul {m n : Nat} (A : Matrix (Fin m) (Fin n) α)
    (P : Matrix (Fin n) (Fin m) α) (U : Matrix (Fin m) (Fin m) α)
    (hU : U * Uᵀ = 1) (hP : MPMat A P) : MPMat (U * A) (P * Uᵀ) := by
  have hUt : Uᵀ * U = 1 := mul_eq_one_comm.mp hU
  obtain ⟨h1, h2, h3, h4⟩ := hP
  have h3' : Pᵀ * Aᵀ = A * P := by
    rw [← Matrix.transpose_mul]
    exact h3
  have h4' : Aᵀ * Pᵀ = P * A := by
    rw [← Matrix.transpose_mul]
    exact h4
  refine ⟨?_, ?_, ?_, ?_⟩
  · calc U * A * (P * Uᵀ) * (U * A)
        = U * (A * P) * (Uᵀ * U) * A := by simp only [Matrix.mul_assoc]
    _ = U * (A * P) * A := by rw [hUt, Matrix.mul_one]
    _ = U * (A * P * A) := by simp only [Matrix.mul_assoc]
    _ = U * A := by rw [h1]
  · calc P * Uᵀ * (U * A) * (P * Uᵀ)
        = P * (Uᵀ * U) * (A * P) * Uᵀ := by simp only [Matrix.mul_assoc]
    _ = P * (A * P) * Uᵀ := by rw [hUt, Matrix.mul_one]
    _ = P * A * P * Uᵀ := by simp only [Matrix.mul_assoc]
    _ = P * Uᵀ := by rw [h2]
  · calc (U * A * (P * Uᵀ))ᵀ
        = U * (Pᵀ * Aᵀ) * Uᵀ := by
          simp only [Matrix.transpose_mul, Matrix.transpose_transpose,
            Matrix.mul_assoc]
    _ = U * (A * P) * Uᵀ := by rw [h3']
    _ = U * A * (P * Uᵀ) := by simp only [Matrix.mul_assoc]
  · calc (P * Uᵀ * (U * A))ᵀ
        = Aᵀ * (Uᵀ * U) * Pᵀ := by
          simp only [Matrix.transpose_mul, Matrix.transpose_transpose,
            Matrix.mul_assoc]
    _ = Aᵀ * Pᵀ := by rw [hUt, Matrix.mul_one]
    _ = P * A := h4'
    _ = P * (Uᵀ * U) * A := by rw [hUt, Matrix.mul_one]
    _ = P * Uᵀ * (U * A) := by simp only [Matrix.mul_assoc]

theorem mpmat_smul {m n : Nat} {β : Type} [Field β]
    (A : Matrix (Fin m) (Fin n) β) (P : Matrix (Fin n) (Fin m) β) (a : β)
    (ha : a ≠ 0) (hP : MPMat A P) : MPMat (a • A) (a⁻¹ • P) := by
  obtain ⟨h1, h2, h3, h4⟩ := hP
  refine ⟨?_, ?_, ?_, ?_⟩
  · simp only [Matrix.smul_mul, Matrix.mul_smul, smul_smul, h1]
    congr 1
    field_simp
  · simp only [Matrix.smul_mul, Matrix.mul_smul, smul_smul, h2]
    congr 1
    field_simp
  · simp only [Matrix.smul_mul, Matrix.mul_smul, smul_smul,
      Matrix.transpose_smul, h3]
  · simp only [Matrix.smul_mul, Matrix.mul_smul, smul_smul,
      Matrix.transpose_smul, h4]

theorem kronFin_mul {a b c N : Nat} (M : Matrix (Fin a) (Fin b) α)
    (M2 : Matrix (Fin b) (Fin c) α) :
    kronFin (M * M2) N = kronFin M N * kronFin M2 N := by
  unfold kronFin
  rw [Matrix.submatrix_mul_equiv _ _ _ finProdFinEquiv.symm _]
  congr 1
  rw [← Matrix.mul_kronecker_mul, Matrix.one_mul]

theorem kronFin_transpose {a b N : Nat} (M : Matrix (Fin a) (Fin b) α) :
    kronFin Mᵀ N = (kronFin M N)ᵀ := by
  unfold kronFin
  rw [Matrix.transpose_submatrix]
  congr 1
  rw [← Matrix.kroneckerMap_transpose, Matrix.transpose_one]

theorem kronFin_smul {a b N : Nat} (M : Matrix (Fin a) (Fin b) α) (r : α) :
    kronFin (r • M) N = r • kronFin M N := by
  unfold kronFin
  ext i j
  simp only [Matrix.submatrix_apply, Matrix.kroneckerMap_apply,
    Matrix.smul_apply, smul_eq_mul]
  ring

theorem kronFin_one {a N : Nat} :
    kronFin (1 : Matrix (Fin a) (Fin a) α) N = 1 := by
  unfold kronFin
  rw [Matrix.one_kronecker_one, Matrix.submatrix_one_equiv]

end MPLemmas

section ScaleBridgeLemmas

open Matrix

variable {α : Type} [CommRing α]

theorem dims_scaleMat (c : α) (A : Mat α) (m n : Nat) (hA : Dims A m n) :
    Dims (scaleMat c A) m n := by
  constructor
  · simp [scaleMat, hA.1]
  · intro r hr
    simp only [scaleMat, List.mem_map] at hr
    obtain ⟨r0, hr0, rfl⟩ := hr
    simp [hA.2 r0 hr0]

theorem entryM_scaleMat (c : α) (A : Mat α) (i j : Nat) :
    entryM (scaleMat c A) i j = c * entryM A i j := by
  unfold entryM scaleMat
  by_cases hi : i < A.length
  · rw [getD_map_lt _ A i [] [] hi]
    by_cases hj : j < (A.getD i []).length
    · rw [getD_map_lt _ _ j 0 0 hj]
    · rw [List.getD_eq_default _ _ (by
          simpa using Nat.le_of_not_lt hj),
        List.getD_eq_default _ _ (Nat.le_of_not_lt hj), mul_zero]
  · rw [List.getD_eq_default (A.map fun r => r.map fun x => c * x) []
        (by simpa using Nat.le_of_not_lt hi),
      List.getD_eq_default A [] (Nat.le_of_not_lt hi)]
    simp

theorem toMat_scaleMat (c : α) (A : Mat α) (m n : Nat) :
    toMat (scaleMat c A) m n = c • toMat A m n := by
  ext i j
  show entryM (scaleMat c A) i.1 j.1 = c * entryM A i.1 j.1
  exact entryM_scaleMat c A i.1 j.1

theorem resolveSigma_mat_ok_inv (G : Nat) (M sg : Mat α)
    (h : resolveSigma G (some (.arr (.mat M))) = .ok sg) : sg = M := by
  rw [resolveSigma_mat] at h
  by_cases hc : M.length = G ∧ colsOf M = G
  · rw [if_pos hc] at h
    exact (Except.ok.inj h).symm
  · rw [if_neg hc] at h
    exact Except.noConfusion h

theorem dims_reshapeNeg1_1 (M : Mat α) (G N : Nat) (hlen : M.length = G)
    (hrow : ∀ r ∈ M, r.length = N) : Dims (reshapeNeg1_1 M) (G * N) 1 := by
  constructor
  · unfold reshapeNeg1_1
    rw [List.length_map, flatten_uniform_length M N hrow, hlen]
  · intro r hr
    unfold reshapeNeg1_1 at hr
    obtain ⟨x, _, rfl⟩ := List.mem_map.mp hr
    rfl

theorem toMat_kronL_eyeL (A : Mat α) (a b N : Nat) (hA : Dims A a b)
    (hN : 0 < N) :
    toMat (kronL A (eyeL N)) (a * N) (b * N) = kronFin (toMat A a b) N := by
  ext i j
  have hia : i.1 / N < a := (Nat.div_lt_iff_lt_mul hN).mpr i.2
  have hjb : j.1 / N < b := (Nat.div_lt_iff_lt_mul hN).mpr j.2
  have him : i.1 % N < N := Nat.mod_lt _ hN
  have hjm : j.1 % N < N := Nat.mod_lt _ hN
  have hi : i.1 / N * N + i.1 % N = i.1 := by
    rw [Nat.mul_comm]
    exact Nat.div_add_mod i.1 N
  have hj : j.1 / N * N + j.1 % N = j.1 := by
    rw [Nat.mul_comm]
    exact Nat.div_add_mod j.1 N
  have key := entryM_kronL A (eyeL N) a b N N hA (dims_eyeL N)
    (i.1 / N) (j.1 / N) (i.1 % N) (j.1 % N) hia hjb him hjm
  rw [hi, hj, entryM_eyeL N _ _ him hjm] at key
  have h0 : kronFin (toMat A a b) N i j =
      toMat A a b i.divNat j.divNat *
        (1 : Matrix (Fin N) (Fin N) α) i.modNat j.modNat := rfl
  show entryM (kronL A (eyeL N)) i.1 j.1 = kronFin (toMat A a b) N i j
  rw [key, h0, Matrix.one_apply]
  have h1 : toMat A a b i.divNat j.divNat =
      entryM A (i.1 / N) (j.1 / N) := rfl
  rw [h1]
  congr 1
  by_cases h : i.1 % N = j.1 % N
  · rw [if_pos h, if_pos (Fin.ext (show i.modNat.1 = j.modNat.1 from h))]
  · rw [if_neg h, if_neg fun hh =>
      h (show i.modNat.1 = j.modNat.1 from congrArg Fin.val hh)]

theorem dims_whitenL (csi X : Mat α) (G N K : Nat) (hcsi : Dims csi G G)
    (hX : Dims X (G * N) K) (hGN : 0 < G * N) :
    Dims (whitenL csi N X) (G * N) K := by
  unfold whitenL
  have hk := dims_kronL csi (eyeL N) G G N N hcsi (dims_eyeL N)
  exact dims_matMul _ X (G * N) (G * N) K hk hX hGN

theorem toMat_whitenL (csi X : Mat α) (G N K : Nat) (hcsi : Dims csi G G)
    (hX : Dims X (G * N) K) (hG : 0 < G) (hN : 0 < N) :
    toMat (whitenL csi N X) (G * N) K =
      kronFin (toMat csi G G) N * toMat X (G * N) K := by
  unfold whitenL
  have hk := dims_kronL csi (eyeL N) G G N N hcsi (dims_eyeL N)
  rw [toMat_matMul _ X (G * N) (G * N) K hk hX (Nat.mul_pos hG hN),
    toMat_kronL_eyeL csi G G N hcsi hN]

theorem cholFac_isUnit_det {β : Type} [LinearOrderedField β] (L P : Mat β)
    (G : Nat) (h : CholFac L P G) : IsUnit (toMat L G G).det := by
  obtain ⟨hd, hlt, hpos, _⟩ := h
  have hdet : (toMat L G G).det = ∏ i : Fin G, toMat L G G i i := by
    apply Matrix.det_of_lowerTriangular
    intro i j hij
    exact hlt i.1 i.2 j.1 j.2 hij
  rw [hdet]
  apply isUnit_iff_ne_zero.mpr
  apply ne_of_gt
  apply Finset.prod_pos
  intro i _
  exact hpos i.1 i.2

theorem cholFac_toMat {β : Type} [LinearOrderedField β] (L P : Mat β)
    (G : Nat) (hG : 0 < G) (h : CholFac L P G) :
    toMat L G G * (toMat L G G)ᵀ = toMat P G G := by
  obtain ⟨hd, _, _, heq⟩ := h
  have hdt : Dims (transposeL L) G G := dims_transposeL L G G hd hG
  have := congrArg (fun X => toMat X G G) heq
  simp only at this
  rw [toMat_matMul L (transposeL L) G G G hd hdt hG,
    toMat_transposeL L G G hd hG] at this
  exact this

end ScaleBridgeLemmas

section ScaleCore

open Matrix

/-- If `C2 * C2ᵀ = c⁻¹ • (C1 * C1ᵀ)` with `C1` invertible, then `C2` is
`(√c)⁻¹ • C1 * O` for an orthogonal `O`. -/
theorem gls_scale_core {G : Nat} (c : ℝ) (hc : 0 < c)
    (C1 C2 : Matrix (Fin G) (Fin G) ℝ) (hC1 : IsUnit C1.det)
    (hrel : C2 * C2ᵀ = c⁻¹ • (C1 * C1ᵀ)) :
    ∃ O : Matrix (Fin G) (Fin G) ℝ, O * Oᵀ = 1 ∧
      C2 = (Real.sqrt c)⁻¹ • (C1 * O) := by
  have hs0 : 0 < Real.sqrt c := Real.sqrt_pos.mpr hc
  have hss : Real.sqrt c * Real.sqrt c = c := Real.mul_self_sqrt hc.le
  have hC1t : IsUnit C1ᵀ.det := by
    rw [Matrix.det_transpose]
    exact hC1
  have hinv1 : C1 * C1⁻¹ = 1 := Matrix.mul_nonsing_inv C1 hC1
  have hinv2 : C1⁻¹ * C1 = 1 := Matrix.nonsing_inv_mul C1 hC1
  have hinv3 : C1ᵀ * (C1ᵀ)⁻¹ = 1 := Matrix.mul_nonsing_inv C1ᵀ hC1t
  refine ⟨Real.sqrt c • (C1⁻¹ * C2), ?_, ?_⟩
  · have hmid : C1⁻¹ * C2 * (C1⁻¹ * C2)ᵀ = c⁻¹ • 1 := by
      calc C1⁻¹ * C2 * (C1⁻¹ * C2)ᵀ
          = C1⁻¹ * (C2 * C2ᵀ) * (C1⁻¹)ᵀ := by
            simp only [Matrix.transpose_mul, Matrix.mul_assoc]
      _ = c⁻¹ • (C1⁻¹ * (C1 * C1ᵀ) * (C1ᵀ)⁻¹) := by
            rw [hrel, Matrix.transpose_nonsing_inv]
            simp only [Matrix.mul_smul, Matrix.smul_mul]
      _ = c⁻¹ • ((C1⁻¹ * C1) * (C1ᵀ * (C1ᵀ)⁻¹)) := by
            simp only [Matrix.mul_assoc]
      _ = c⁻¹ • 1 := by rw [hinv2, hinv3, Matrix.one_mul]
    rw [Matrix.transpose_smul, Matrix.smul_mul, Matrix.mul_smul, smul_smul,
      hmid, smul_smul, hss, mul_inv_cancel₀ (ne_of_gt hc), one_smul]
  · rw [Matrix.mul_smul, smul_smul, inv_mul_cancel₀ (ne_of_gt hs0),
      one_smul, ← Matrix.mul_assoc, hinv1, Matrix.one_mul]

/-- Scale invariance of the GLS estimate at the matrix level: whitening
with `C2ᵀ` in place of `C1ᵀ`, where `C2 * C2ᵀ = c⁻¹ • (C1 * C1ᵀ)`, leaves
`pinv(whitened design) @ whitened response` unchanged. -/
theorem gls_scale_params {G N SK : Nat} (c : ℝ) (hc : 0 < c)
    (C1 C2 : Matrix (Fin G) (Fin G) ℝ) (X : Matrix (Fin (G * N)) (Fin SK) ℝ)
    (y : Matrix (Fin (G * N)) (Fin 1) ℝ)
    (Q1 Q2 : Matrix (Fin SK) (Fin (G * N)) ℝ)
    (hC1 : IsUnit C1.det) (hrel : C2 * C2ᵀ = c⁻¹ • (C1 * C1ᵀ))
    (hQ1 : MPMat (kronFin C1ᵀ N * X) Q1)
    (hQ2 : MPMat (kronFin C2ᵀ N * X) Q2) :
    Q2 * (kronFin C2ᵀ N * y) = Q1 * (kronFin C1ᵀ N * y) := by
  obtain ⟨O, hO, hC2⟩ := gls_scale_core c hc C1 C2 hC1 hrel
  have hs0 : Real.sqrt c ≠ 0 := ne_of_gt (Real.sqrt_pos.mpr hc)
  have hOt : Oᵀ * O = 1 := mul_eq_one_comm.mp hO
  have hU : kronFin Oᵀ N * (kronFin Oᵀ N)ᵀ = 1 := by
    rw [← kronFin_transpose, Matrix.transpose_transpose, ← kronFin_mul,
      hOt, kronFin_one]
  have hC2t : C2ᵀ = (Real.sqrt c)⁻¹ • (Oᵀ * C1ᵀ) := by
    rw [hC2, Matrix.transpose_smul, Matrix.transpose_mul]
  have hker : kronFin C2ᵀ N =
      (Real.sqrt c)⁻¹ • (kronFin Oᵀ N * kronFin C1ᵀ N) := by
    rw [hC2t, kronFin_smul, kronFin_mul]
  have hw2 : kronFin C2ᵀ N * X =
      (Real.sqrt c)⁻¹ • (kronFin Oᵀ N * (kronFin C1ᵀ N * X)) := by
    rw [hker, Matrix.smul_mul, Matrix.mul_assoc]
  have hMP2 : MPMat (kronFin C2ᵀ N * X)
      (((Real.sqrt c)⁻¹)⁻¹ • (Q1 * (kronFin Oᵀ N)ᵀ)) := by
    rw [hw2]
    exact mpmat_smul _ _ _ (inv_ne_zero hs0)
      (mpmat_orthmul _ _ _ hU hQ1)
  have hQ2eq : Q2 = Real.sqrt c • (Q1 * (kronFin Oᵀ N)ᵀ) := by
    have huniq := mpmat_unique _ _ _ hQ2 hMP2
    rw [huniq, inv_inv]
  have hy2 : kronFin C2ᵀ N * y =
      (Real.sqrt c)⁻¹ • (kronFin Oᵀ N * (kronFin C1ᵀ N * y)) := by
    rw [hker, Matrix.smul_mul, Matrix.mul_assoc]
  have hUt : (kronFin Oᵀ N)ᵀ * kronFin Oᵀ N = 1 := mul_eq_one_comm.mp hU
  rw [hQ2eq, hy2, Matrix.smul_mul, Matrix.mul_smul, smul_smul,
    mul_inv_cancel₀ hs0, one_smul]
  calc Q1 * (kronFin Oᵀ N)ᵀ * (kronFin Oᵀ N * (kronFin C1ᵀ N * y))
      = Q1 * (((kronFin Oᵀ N)ᵀ * kronFin Oᵀ N) * (kronFin C1ᵀ N * y)) := by
        simp only [Matrix.mul_assoc]
  _ = Q1 * (kronFin C1ᵀ N * y) := by rw [hUt, Matrix.one_mul]

end ScaleCore

section ClaimC8

open Matrix

/-- Claim C8: for every system, every valid covariance matrix `Sg`, and
every positive scalar `c`, fitting the GLS model constructed with
covariance `c * Sg` yields the same parameter estimates as fitting the one
constructed with covariance `Sg`.  The externally computed factors
(`chol1`/`chol2` for `np.linalg.cholesky(np.linalg.pinv(sigma))`,
`pinvW1`/`pinvW2` for `np.linalg.pinv(wexog)`) are constrained by their
defining equations `CholFac` and `IsPinv`. -/
theorem claim_C8_scale_invariance (sys : List (Equation ℝ))
    (Sg chol1 chol2 pinvW1 pinvW2 P1 P2 : Mat ℝ) (c : ℝ) (N SK : Nat)
    {st1 st2 : SysGLSData ℝ} (hc : 0 < c)
    (h1 : sysGLSInit sys (some (.arr (.mat Sg))) chol1 pinvW1 = .ok st1)
    (h2 : sysGLSInit sys (some (.arr (.mat (scaleMat c Sg)))) chol2 pinvW2 =
      .ok st2)
    (hend : ∀ e ∈ sys, e.endog.length = N) (hN : 0 < N) (hSK : 0 < SK)
    (hSg : Dims Sg sys.length sys.length)
    (hsp : Dims st1.sp_exog (sys.length * N) SK)
    (hP1d : Dims P1 sys.length sys.length) (hP1 : IsPinv st1.sigma P1)
    (hch1 : CholFac chol1 P1 sys.length)
    (hP2d : Dims P2 sys.length sys.length) (hP2 : IsPinv st2.sigma P2)
    (hch2 : CholFac chol2 P2 sys.length)
    (hq1d : Dims st1.pinv_wexog SK (sys.length * N))
    (hq1 : IsPinv st1.wexog st1.pinv_wexog)
    (hq2d : Dims st2.pinv_wexog SK (sys.length * N))
    (hq2 : IsPinv st2.wexog st2.pinv_wexog) :
    (sysGLSFit st2).params = (sysGLSFit st1).params := by
  obtain ⟨e0, rest, sg1, hsys, hres1, hst1⟩ := sysGLSInit_ok _ _ _ _ _ h1
  subst hsys
  obtain ⟨e0', rest', sg2, hsys', hres2, hst2⟩ := sysGLSInit_ok _ _ _ _ _ h2
  injection hsys' with he hr
  subst he
  subst hr
  have hsg1 : sg1 = Sg := resolveSigma_mat_ok_inv _ _ _ hres1
  have hsg2 : sg2 = scaleMat c Sg := resolveSigma_mat_ok_inv _ _ _ hres2
  subst hsg1
  subst hsg2
  subst hst1
  subst hst2
  set G := (e0 :: rest).length with hGdef
  set X := blockDiagL ((e0 :: rest).map Equation.exog) with hXdef
  set y := reshapeNeg1_1 ((e0 :: rest).map Equation.endog) with hydef
  have hnobs : e0.endog.length = N := hend e0 (List.mem_cons_self e0 rest)
  have hGpos : 0 < G := by rw [hGdef]; simp
  have hGN : 0 < G * N := Nat.mul_pos hGpos hN
  have hXd : Dims X (G * N) SK := hsp
  have hYd : Dims y (G * N) 1 := by
    rw [hydef, hGdef]
    apply dims_reshapeNeg1_1 _ (e0 :: rest).length N (by simp)
    intro r hr2
    obtain ⟨e, he2, rfl⟩ := List.mem_map.mp hr2
    exact hend e he2
  have hq1' : IsPinv (whitenL (transposeL chol1) N X) pinvW1 := by
    rw [← hnobs]
    exact hq1
  have hq2' : IsPinv (whitenL (transposeL chol2) N X) pinvW2 := by
    rw [← hnobs]
    exact hq2
  have hq1d' : Dims pinvW1 SK (G * N) := hq1d
  have hq2d' : Dims pinvW2 SK (G * N) := hq2d
  have hcsi1 : Dims (transposeL chol1) G G :=
    dims_transposeL chol1 G G hch1.1 hGpos
  have hcsi2 : Dims (transposeL chol2) G G :=
    dims_transposeL chol2 G G hch2.1 hGpos
  have hW1d : Dims (whitenL (transposeL chol1) N X) (G * N) SK :=
    dims_whitenL _ X G N SK hcsi1 hXd hGN
  have hW2d : Dims (whitenL (transposeL chol2) N X) (G * N) SK :=
    dims_whitenL _ X G N SK hcsi2 hXd hGN
  have hWy1d : Dims (whitenL (transposeL chol1) N y) (G * N) 1 :=
    dims_whitenL _ y G N 1 hcsi1 hYd hGN
  have hWy2d : Dims (whitenL (transposeL chol2) N y) (G * N) 1 :=
    dims_whitenL _ y G N 1 hcsi2 hYd hGN
  have hTW1 : toMat (whitenL (transposeL chol1) N X) (G * N) SK =
      kronFin ((toMat chol1 G G)ᵀ) N * toMat X (G * N) SK := by
    rw [toMat_whitenL (transposeL chol1) X G N SK hcsi1 hXd hGpos hN,
      toMat_transposeL chol1 G G hch1.1 hGpos]
  have hTW2 : toMat (whitenL (transposeL chol2) N X) (G * N) SK =
      kronFin ((toMat chol2 G G)ᵀ) N * toMat X (G * N) SK := by
    rw [toMat_whitenL (transposeL chol2) X G N SK hcsi2 hXd hGpos hN,
      toMat_transposeL chol2 G G hch2.1 hGpos]
  have hTy1 : toMat (whitenL (transposeL chol1) N y) (G * N) 1 =
      kronFin ((toMat chol1 G G)ᵀ) N * toMat y (G * N) 1 := by
    rw [toMat_whitenL (transposeL chol1) y G N 1 hcsi1 hYd hGpos hN,
      toMat_transposeL chol1 G G hch1.1 hGpos]
  have hTy2 : toMat (whitenL (transposeL chol2) N y) (G * N) 1 =
      kronFin ((toMat chol2 G G)ᵀ) N * toMat y (G * N) 1 := by
    rw [toMat_whitenL (transposeL chol2) y G N 1 hcsi2 hYd hGpos hN,
      toMat_transposeL chol2 G G hch2.1 hGpos]
  have hQ1M : MPMat (kronFin ((toMat chol1 G G)ᵀ) N * toMat X (G * N) SK)
      (toMat pinvW1 SK (G * N)) := by
    rw [← hTW1]
    exact isPinv_toMat _ pinvW1 (G * N) SK hW1d hq1d' hGN hSK hq1'
  have hQ2M : MPMat (kronFin ((toMat chol2 G G)ᵀ) N * toMat X (G * N) SK)
      (toMat pinvW2 SK (G * N)) := by
    rw [← hTW2]
    exact isPinv_toMat _ pinvW2 (G * N) SK hW2d hq2d' hGN hSK hq2'
  have hm0 : MPMat (toMat sg1 G G) (toMat P1 G G) :=
    isPinv_toMat sg1 P1 G G hSg hP1d hGpos hGpos hP1
  have hm2 : MPMat (toMat (scaleMat c sg1) G G) (toMat P2 G G) :=
    isPinv_toMat (scaleMat c sg1) P2 G G (dims_scaleMat c sg1 G G hSg)
      hP2d hGpos hGpos hP2
  rw [toMat_scaleMat c sg1 G G] at hm2
  have hm0' : MPMat (c • toMat sg1 G G) (c⁻¹ • toMat P1 G G) :=
    mpmat_smul _ _ c (ne_of_gt hc) hm0
  have hP2eq : toMat P2 G G = c⁻¹ • toMat P1 G G :=
    mpmat_unique _ _ _ hm2 hm0'
  have hrel : toMat chol2 G G * (toMat chol2 G G)ᵀ =
      c⁻¹ • (toMat chol1 G G * (toMat chol1 G G)ᵀ) := by
    rw [cholFac_toMat chol2 P2 G hGpos hch2,
      cholFac_toMat chol1 P1 G hGpos hch1]
    exact hP2eq
  have hkey := gls_scale_params c hc (toMat chol1 G G) (toMat chol2 G G)
    (toMat X (G * N) SK) (toMat y (G * N) 1)
    (toMat pinvW1 SK (G * N)) (toMat pinvW2 SK (G * N))
    (cholFac_isUnit_det chol1 P1 G hch1) hrel hQ1M hQ2M
  have hfin : toMat (matMul pinvW2 (whitenL (transposeL chol2) N y)) SK 1 =
      toMat (matMul pinvW1 (whitenL (transposeL chol1) N y)) SK 1 := by
    rw [toMat_matMul pinvW2 _ SK (G * N) 1 hq2d' hWy2d hGN,
      toMat_matMul pinvW1 _ SK (G * N) 1 hq1d' hWy1d hGN, hTy1, hTy2]
    exact hkey
  show matMul pinvW2 (whitenL (transposeL chol2) e0.endog.length y) =
    matMul pinvW1 (whitenL (transposeL chol1) e0.endog.length y)
  rw [hnobs]
  exact toMat_inj _ _ SK 1
    (dims_matMul pinvW2 _ SK (G * N) 1 hq2d' hWy2d hGN)
    (dims_matMul pinvW1 _ SK (G * N) 1 hq1d' hWy1d hGN) hfin

theorem claim_C8_witness :
    ∃ st1 st2 : SysGLSData ℝ,
      sysGLSInit [(⟨[1], [[1]]⟩ : Equation ℝ)] (some (.arr (.mat [[1]])))
        [[1]] [[1]] = .ok st1 ∧
      sysGLSInit [(⟨[1], [[1]]⟩ : Equation ℝ)]
        (some (.arr (.mat (scaleMat 4 [[1]])))) [[1 / 2]] [[2]] = .ok st2 ∧
      (sysGLSFit st2).params = (sysGLSFit st1).params := by
  refine ⟨_, _, rfl, rfl, ?_⟩
  exact claim_C8_scale_invariance [(⟨[1], [[1]]⟩ : Equation ℝ)] [[1]]
    [[1]] [[1 / 2]] [[1]] [[2]] [[1]] [[1 / 4]] 4 1 1
    (by norm_num) rfl rfl
    (by
      intro e he
      rcases List.mem_singleton.mp he with rfl
      rfl)
    (by decide) (by decide)
    (by simp [Dims])
    (by norm_num [Dims, blockDiagL, totalColsOf, colsOf, List.range_succ])
    (by simp [Dims])
    (by norm_num [IsPinv, matMul, transposeL, dotL, colsOf, entryM,
      List.range_succ])
    (by
      refine ⟨⟨rfl, ?_⟩, ?_, ?_, ?_⟩
      · intro r hr
        rcases List.mem_singleton.mp hr with rfl
        rfl
      · intro i hi j hj hij
        simp only [List.length_cons, List.length_nil] at hi hj
        omega
      · intro i hi
        simp only [List.length_cons, List.length_nil] at hi
        interval_cases i
        norm_num [entryM]
      · norm_num [matMul, transposeL, dotL, colsOf, entryM, List.range_succ])
    (by simp [Dims])
    (by norm_num [IsPinv, scaleMat, matMul, transposeL, dotL, colsOf, entryM,
      List.range_succ])
    (by
      refine ⟨⟨rfl, ?_⟩, ?_, ?_, ?_⟩
      · intro r hr
        rcases List.mem_singleton.mp hr with rfl
        rfl
      · intro i hi j hj hij
        simp only [List.length_cons, List.length_nil] at hi hj
        omega
      · intro i hi
        simp only [List.length_cons, List.length_nil] at hi
        interval_cases i
        norm_num [entryM]
      · norm_num [matMul, transposeL, dotL, colsOf, entryM, List.range_succ])
    (by simp [Dims])
    (by norm_num [IsPinv, whitenL, matMul, transposeL, dotL, colsOf, entryM,
      kronL, eyeL, diagL, onesL, blockDiagL, totalColsOf, List.range_succ])
    (by simp [Dims])
    (by norm_num [IsPinv, whitenL, matMul, transposeL, dotL, colsOf, entryM,
      kronL, eyeL, diagL, onesL, blockDiagL, totalColsOf, List.range_succ])

end ClaimC8

section BlockAlgebraLemmas

variable {α : Type} [CommRing α]

theorem map_zero_replicate {β : Type} (l : List β) :
    (l.map fun _ => (0 : α)) = List.replicate l.length 0 := by
  induction l with
  | nil => rfl
  | cons x l ih => simp [ih, List.replicate_succ]

theorem dotL_replicate_left : ∀ (t : Nat) (v : List α),
    dotL (List.replicate t (0 : α)) v = 0 := by
  intro t
  induction t with
  | zero => intro v; simp [dotL]
  | succ t ih =>
    intro v
    rcases v with _ | ⟨w, ws⟩
    · simp [dotL]
    · simp only [List.replicate_succ, dotL, List.zipWith_cons_cons,
        List.sum_cons, zero_mul, zero_add]
      exact ih ws

theorem dotL_replicate_right : ∀ (v : List α) (t : Nat),
    dotL v (List.replicate t (0 : α)) = 0 := by
  intro v
  induction v with
  | nil => intro t; simp [dotL]
  | cons x v ih =>
    intro t
    rcases t with _ | t
    · simp [dotL]
    · simp only [List.replicate_succ, dotL, List.zipWith_cons_cons,
        List.sum_cons, mul_zero, zero_add]
      exact ih t

theorem dotL_append_split (xs ys zs ws : List α)
    (h : xs.length = zs.length) :
    dotL (xs ++ ys) (zs ++ ws) = dotL xs zs + dotL ys ws := by
  unfold dotL
  rw [List.zipWith_append _ _ _ _ _ h, List.sum_append]

theorem matMul_append_rows (X1 X2 Y : Mat α) :
    matMul (X1 ++ X2) Y = matMul X1 Y ++ matMul X2 Y := by
  simp [matMul]

theorem transposeL_column (Y : Mat α) (hne : Y ≠ [])
    (h1 : ∀ r ∈ Y, r.length = 1) :
    transposeL Y = [Y.map fun r => r.getD 0 0] := by
  have hc : colsOf Y = 1 := by
    rcases Y with _ | ⟨r, Y⟩
    · exact absurd rfl hne
    · exact h1 r (List.mem_cons_self r Y)
  unfold transposeL
  rw [hc]
  simp [List.range_succ]

theorem matMul_to_col (A Y : Mat α) (hY1 : ∀ row ∈ Y, row.length = 1)
    (himp : Y = [] → A = []) :
    matMul A Y = A.map fun r => [dotL r (Y.map fun row => row.getD 0 0)] := by
  rcases Y with _ | ⟨r0, Y'⟩
  · rw [himp rfl]
    rfl
  · unfold matMul
    rw [transposeL_column _ (by simp) hY1]
    rfl

theorem length_transposeL (M : Mat α) : (transposeL M).length = colsOf M := by
  simp [transposeL]

theorem colsOf_transposeL (M : Mat α) (hc : 0 < colsOf M) :
    colsOf (transposeL M) = M.length := by
  obtain ⟨c, hcc⟩ : ∃ c, colsOf M = c + 1 := ⟨colsOf M - 1, by omega⟩
  unfold transposeL
  rw [hcc, List.range_succ_eq_map]
  simp [colsOf]

theorem blockDiag_length_sum : ∀ (Ms : List (Mat α)),
    (blockDiagL Ms).length = (Ms.map List.length).sum := by
  intro Ms
  induction Ms with
  | nil => rfl
  | cons A Ms ih =>
    simp only [blockDiagL, List.length_append, List.length_map,
      List.map_cons, List.sum_cons, ih]

theorem colsOf_blockDiag (Ms : List (Mat α))
    (hne : ∀ M ∈ Ms, M ≠ []) :
    colsOf (blockDiagL Ms) = totalColsOf Ms := by
  rcases Ms with _ | ⟨A, Ms⟩
  · rfl
  · have hA : A ≠ [] := hne A (List.mem_cons_self A Ms)
    rcases A with _ | ⟨r0, A'⟩
    · exact absurd rfl hA
    · simp only [blockDiagL, totalColsOf, List.map_cons, List.sum_cons,
        List.map_cons, List.cons_append, colsOf, List.headD_cons,
        List.length_append, List.length_replicate]

theorem totalColsOf_eq_general : ∀ (Ms : List (Mat α)) (Rs Cs : List Nat),
    Rs.length = Ms.length → Cs.length = Ms.length →
    (∀ i, i < Ms.length →
      Dims (Ms.getD i []) (Rs.getD i 0) (Cs.getD i 0)) →
    (∀ i, i < Ms.length → 0 < Rs.getD i 0) →
    totalColsOf Ms = Cs.sum := by
  intro Ms
  induction Ms with
  | nil =>
    intro Rs Cs hR hC _ _
    have hCs : Cs = [] := List.length_eq_zero.mp (by simpa using hC)
    subst hCs
    rfl
  | cons A Ms ih =>
    intro Rs Cs hR hC hdim hRp
    rcases Rs with _ | ⟨rA, Rs⟩
    · simp at hR
    rcases Cs with _ | ⟨cA, Cs⟩
    · simp at hC
    have hA : Dims A rA cA := by
      have := hdim 0 (by simp)
      simpa using this
    have hrA : 0 < rA := by simpa using hRp 0 (by simp)
    rw [totalColsOf_cons, colsOf_eq A rA cA hA hrA, List.sum_cons]
    congr 1
    exact ih Rs Cs (by simpa using hR) (by simpa using hC)
      (fun i hi => by
        have := hdim (i + 1) (by simpa using Nat.succ_lt_succ hi)
        simpa using this)
      (fun i hi => by
        have := hRp (i + 1) (by simpa using Nat.succ_lt_succ hi)
        simpa using this)

theorem blockDiag_dims_general : ∀ (Ms : List (Mat α)) (Rs Cs : List Nat),
    Rs.length = Ms.length → Cs.length = Ms.length →
    (∀ i, i < Ms.length →
      Dims (Ms.getD i []) (Rs.getD i 0) (Cs.getD i 0)) →
    (∀ i, i < Ms.length → 0 < Rs.getD i 0) →
    Dims (blockDiagL Ms) Rs.sum Cs.sum := by
  intro Ms
  induction Ms with
  | nil =>
    intro Rs Cs hR hC _ _
    have hRs : Rs = [] := List.length_eq_zero.mp (by simpa using hR)
    have hCs : Cs = [] := List.length_eq_zero.mp (by simpa using hC)
    subst hRs
    subst hCs
    exact ⟨rfl, by simp [blockDiagL]⟩
  | cons A Ms ih =>
    intro Rs Cs hR hC hdim hRp
    rcases Rs with _ | ⟨rA, Rs⟩
    · simp at hR
    rcases Cs with _ | ⟨cA, Cs⟩
    · simp at hC
    have hA : Dims A rA cA := by
      have := hdim 0 (by simp)
      simpa using this
    have hrA : 0 < rA := by simpa using hRp 0 (by simp)
    have hdrest : ∀ i, i < Ms.length →
        Dims (Ms.getD i []) (Rs.getD i 0) (Cs.getD i 0) := by
      intro i hi
      have := hdim (i + 1) (by simpa using Nat.succ_lt_succ hi)
      simpa using this
    have hRprest : ∀ i, i < Ms.length → 0 < Rs.getD i 0 := by
      intro i hi
      have := hRp (i + 1) (by simpa using Nat.succ_lt_succ hi)
      simpa using this
    have hrest := ih Rs Cs (by simpa using hR) (by simpa using hC)
      hdrest hRprest
    have hcolsA : colsOf A = cA := colsOf_eq A rA cA hA hrA
    have htot : totalColsOf Ms = Cs.sum :=
      totalColsOf_eq_general Ms Rs Cs (by simpa using hR) (by simpa using hC)
        hdrest hRprest
    constructor
    · simp only [blockDiagL, List.length_append, List.length_map, hA.1,
        hrest.1, List.sum_cons]
    · intro r hr
      simp only [blockDiagL, List.mem_append, List.mem_map] at hr
      rcases hr with ⟨r0, hr0, rfl⟩ | ⟨r0, hr0, rfl⟩
      · simp only [List.length_append, List.length_replicate,
          hA.2 r0 hr0, htot, List.sum_cons]
      · simp only [List.length_append, List.length_replicate,
          hrest.2 r0 hr0, hcolsA, List.sum_cons]

end BlockAlgebraLemmas

section BlockTransposeLemmas

variable {α : Type} [CommRing α]

theorem transposeL_def (X : Mat α) :
    transposeL X =
      (List.range (colsOf X)).map fun j => X.map fun r => r.getD j 0 := rfl

theorem blockDiag_blocks_ne_nil (Ms : List (Mat α)) (Rs : List Nat)
    (hR : Rs.length = Ms.length)
    (hlen : ∀ i, i < Ms.length → (Ms.getD i []).length = Rs.getD i 0)
    (hRp : ∀ i, i < Ms.length → 0 < Rs.getD i 0) :
    ∀ M ∈ Ms, M ≠ [] := by
  intro M hM
  obtain ⟨i, hi, rfl⟩ := List.getElem_of_mem hM
  apply List.ne_nil_of_length_pos
  rw [show Ms[i] = Ms.getD i [] from (List.getD_eq_getElem Ms [] hi).symm,
    hlen i hi]
  exact hRp i hi

theorem transposeL_blockDiag : ∀ (Ms : List (Mat α)) (Rs Cs : List Nat),
    Rs.length = Ms.length → Cs.length = Ms.length →
    (∀ i, i < Ms.length →
      Dims (Ms.getD i []) (Rs.getD i 0) (Cs.getD i 0)) →
    (∀ i, i < Ms.length → 0 < Rs.getD i 0) →
    (∀ i, i < Ms.length → 0 < Cs.getD i 0) →
    transposeL (blockDiagL Ms) = blockDiagL (Ms.map transposeL) := by
  intro Ms
  induction Ms with
  | nil => intro Rs Cs _ _ _ _ _; rfl
  | cons A Ms ih =>
    intro Rs Cs hR hC hdim hRp hCp
    rcases Rs with _ | ⟨rA, Rs⟩
    · simp at hR
    rcases Cs with _ | ⟨cA, Cs⟩
    · simp at hC
    have hA : Dims A rA cA := by
      have := hdim 0 (by simp)
      simpa using this
    have hrA : 0 < rA := by simpa using hRp 0 (by simp)
    have hcA : 0 < cA := by simpa using hCp 0 (by simp)
    have hlR : Rs.length = Ms.length := by simpa using hR
    have hlC : Cs.length = Ms.length := by simpa using hC
    have hdrest : ∀ i, i < Ms.length →
        Dims (Ms.getD i []) (Rs.getD i 0) (Cs.getD i 0) := by
      intro i hi
      have := hdim (i + 1) (by simpa using Nat.succ_lt_succ hi)
      simpa using this
    have hRprest : ∀ i, i < Ms.length → 0 < Rs.getD i 0 := by
      intro i hi
      have := hRp (i + 1) (by simpa using Nat.succ_lt_succ hi)
      simpa using this
    have hCprest : ∀ i, i < Ms.length → 0 < Cs.getD i 0 := by
      intro i hi
      have := hCp (i + 1) (by simpa using Nat.succ_lt_succ hi)
      simpa using this
    have hcolsA : colsOf A = cA := colsOf_eq A rA cA hA hrA
    have hAne : A ≠ [] :=
      List.ne_nil_of_length_pos (by rw [hA.1]; exact hrA)
    obtain ⟨r0, A', rfl⟩ : ∃ r0 A', A = r0 :: A' := by
      rcases A with _ | ⟨r0, A'⟩
      · exact absurd rfl hAne
      · exact ⟨r0, A', rfl⟩
    have hr0 : r0.length = cA := hA.2 r0 (List.mem_cons_self r0 A')
    have hBDlen : (blockDiagL Ms).length = Rs.sum := by
      exact (blockDiag_dims_general Ms Rs Cs hlR hlC hdrest hRprest).1
    have hcolsBD : colsOf (blockDiagL Ms) = totalColsOf Ms :=
      colsOf_blockDiag Ms (blockDiag_blocks_ne_nil Ms Rs hlR
        (fun i hi => (hdrest i hi).1) hRprest)
    have hmapdim : ∀ i, i < (Ms.map transposeL).length →
        Dims ((Ms.map transposeL).getD i []) (Cs.getD i 0) (Rs.getD i 0) := by
      intro i hi
      rw [List.length_map] at hi
      rw [getD_map_lt transposeL Ms i [] [] hi]
      exact dims_transposeL (Ms.getD i []) (Rs.getD i 0) (Cs.getD i 0)
        (hdrest i hi) (hRprest i hi)
    have ht' : totalColsOf (Ms.map transposeL) = Rs.sum :=
      totalColsOf_eq_general (Ms.map transposeL) Cs Rs
        (by rw [List.length_map]; exact hlC)
        (by rw [List.length_map]; exact hlR)
        hmapdim (by rw [List.length_map]; exact hCprest)
    have hT : colsOf (transposeL (r0 :: A')) = rA := by
      rw [colsOf_transposeL (r0 :: A') (by rw [hcolsA]; exact hcA), hA.1]
    have htot : totalColsOf Ms = totalColsOf Ms := rfl
    -- expose the block structure on both sides
    show transposeL
        ((r0 :: A').map (fun r => r ++ List.replicate (totalColsOf Ms) 0)
          ++ (blockDiagL Ms).map fun r =>
            List.replicate (colsOf (r0 :: A')) 0 ++ r) =
      (transposeL (r0 :: A')).map
          (fun r => r ++ List.replicate (totalColsOf (Ms.map transposeL)) 0)
        ++ (blockDiagL (Ms.map transposeL)).map fun r =>
          List.replicate (colsOf (transposeL (r0 :: A'))) 0 ++ r
    have hcolsAll : colsOf
        ((r0 :: A').map (fun r => r ++ List.replicate (totalColsOf Ms) 0)
          ++ (blockDiagL Ms).map fun r =>
            List.replicate (colsOf (r0 :: A')) 0 ++ r) =
        cA + totalColsOf Ms := by
      simp [colsOf, hr0]
    rw [transposeL_def, hcolsAll, List.range_add, List.map_append,
      List.map_map]
    congr 1
    · -- columns below cA: the transposed first block, padded on the right
      rw [transposeL_def, show colsOf (r0 :: A') = cA from hcolsA,
        List.map_map]
      apply List.map_congr_left
      intro j hj
      have hjcA : j < cA := List.mem_range.mp hj
      simp only [Function.comp_apply]
      rw [List.map_append, List.map_map, List.map_map]
      congr 1
      · apply List.map_congr_left
        intro r hrr
        simp only [Function.comp_apply]
        exact List.getD_append r (List.replicate (totalColsOf Ms) 0) 0 j
          (by rw [hA.2 r hrr]; exact hjcA)
      · have hz : ∀ r' ∈ blockDiagL Ms,
            ((fun r => r.getD j 0) ∘ fun r =>
              List.replicate cA 0 ++ r) r' = (0 : α) := by
          intro r' _
          simp only [Function.comp_apply]
          rw [List.getD_append (List.replicate cA 0) r' 0 j
            (by rw [List.length_replicate]; exact hjcA)]
          exact getD_replicate_zero _ _
        rw [List.map_congr_left hz, map_zero_replicate, hBDlen, ht']
    · -- columns from cA on: the transposed remaining blocks, padded left
      rw [← ih Rs Cs hlR hlC hdrest hRprest hCprest,
        transposeL_def (blockDiagL Ms), hcolsBD, List.map_map]
      apply List.map_congr_left
      intro j hj
      have hjt : j < totalColsOf Ms := List.mem_range.mp hj
      simp only [Function.comp_apply]
      rw [List.map_append, List.map_map, List.map_map]
      congr 1
      · have hz : ∀ r ∈ r0 :: A',
            ((fun r => r.getD (cA + j) 0) ∘ fun r =>
              r ++ List.replicate (totalColsOf Ms) 0) r = (0 : α) := by
          intro r hrr
          simp only [Function.comp_apply]
          rw [List.getD_append_right r (List.replicate (totalColsOf Ms) 0)
            0 (cA + j) (by rw [hA.2 r hrr]; omega)]
          exact getD_replicate_zero _ _
        rw [List.map_congr_left hz, map_zero_replicate, hT, hA.1]
      · apply List.map_congr_left
        intro r' _
        simp only [Function.comp_apply]
        rw [List.getD_append_right
          (List.replicate (colsOf (r0 :: A')) 0) r' 0 (cA + j)
          (by rw [List.length_replicate, hcolsA]; omega)]
        congr 1
        rw [List.length_replicate, hcolsA]
        omega

end BlockTransposeLemmas

section BlockProductLemmas

variable {α : Type} [CommRing α]

theorem matMul_def (A B : Mat α) :
    matMul A B = A.map fun r => (transposeL B).map fun c => dotL r c := rfl

theorem blockDiagL_cons (A : Mat α) (rest : List (Mat α)) :
    blockDiagL (A :: rest) =
      A.map (fun r => r ++ List.replicate (totalColsOf rest) (0 : α))
        ++ (blockDiagL rest).map fun r =>
          List.replicate (colsOf A) (0 : α) ++ r := rfl

theorem mem_transposeL_length (B : Mat α) (c : List α)
    (hc : c ∈ transposeL B) : c.length = B.length := by
  unfold transposeL at hc
  obtain ⟨j, _, rfl⟩ := List.mem_map.mp hc
  simp

theorem getD_zipWith_matMul (As Bs : List (Mat α)) (i : Nat)
    (hA : i < As.length) (hB : i < Bs.length) :
    (List.zipWith matMul As Bs).getD i [] =
      matMul (As.getD i []) (Bs.getD i []) := by
  rw [List.getD_eq_getElem _ [] (by rw [List.length_zipWith]; omega),
    List.getElem_zipWith, List.getD_eq_getElem As [] hA,
    List.getD_eq_getElem Bs [] hB]

theorem matMul_blockDiag : ∀ (As : List (Mat α)) (Bs : List (Mat α))
    (Rs Ks Cs : List Nat),
    Rs.length = As.length → Ks.length = As.length → Cs.length = As.length →
    Bs.length = As.length →
    (∀ i, i < As.length →
      Dims (As.getD i []) (Rs.getD i 0) (Ks.getD i 0)) →
    (∀ i, i < As.length →
      Dims (Bs.getD i []) (Ks.getD i 0) (Cs.getD i 0)) →
    (∀ i, i < As.length → 0 < Rs.getD i 0) →
    (∀ i, i < As.length → 0 < Ks.getD i 0) →
    (∀ i, i < As.length → 0 < Cs.getD i 0) →
    matMul (blockDiagL As) (blockDiagL Bs) =
      blockDiagL (List.zipWith matMul As Bs) := by
  intro As
  induction As with
  | nil =>
    intro Bs Rs Ks Cs _ _ _ hB _ _ _ _ _
    have hBs : Bs = [] := List.length_eq_zero.mp (by simpa using hB)
    subst hBs
    rfl
  | cons A As ih =>
    intro Bs Rs Ks Cs hR hK hC hB hdA hdB hRp hKp hCp
    rcases Bs with _ | ⟨B, Bs⟩
    · simp at hB
    rcases Rs with _ | ⟨rA, Rs⟩
    · simp at hR
    rcases Ks with _ | ⟨kA, Ks⟩
    · simp at hK
    rcases Cs with _ | ⟨cA, Cs⟩
    · simp at hC
    have hA0 : Dims A rA kA := by
      have := hdA 0 (by simp)
      simpa using this
    have hB0 : Dims B kA cA := by
      have := hdB 0 (by simp)
      simpa using this
    have hrA : 0 < rA := by simpa using hRp 0 (by simp)
    have hkA : 0 < kA := by simpa using hKp 0 (by simp)
    have hcA : 0 < cA := by simpa using hCp 0 (by simp)
    have hlR : Rs.length = As.length := by simpa using hR
    have hlK : Ks.length = As.length := by simpa using hK
    have hlC : Cs.length = As.length := by simpa using hC
    have hlB : Bs.length = As.length := by simpa using hB
    have hdArest : ∀ i, i < As.length →
        Dims (As.getD i []) (Rs.getD i 0) (Ks.getD i 0) := by
      intro i hi
      have := hdA (i + 1) (by simpa using Nat.succ_lt_succ hi)
      simpa using this
    have hdBrest : ∀ i, i < As.length →
        Dims (Bs.getD i []) (Ks.getD i 0) (Cs.getD i 0) := by
      intro i hi
      have := hdB (i + 1) (by simpa using Nat.succ_lt_succ hi)
      simpa using this
    have hRprest : ∀ i, i < As.length → 0 < Rs.getD i 0 := by
      intro i hi
      have := hRp (i + 1) (by simpa using Nat.succ_lt_succ hi)
      simpa using this
    have hKprest : ∀ i, i < As.length → 0 < Ks.getD i 0 := by
      intro i hi
      have := hKp (i + 1) (by simpa using Nat.succ_lt_succ hi)
      simpa using this
    have hCprest : ∀ i, i < As.length → 0 < Cs.getD i 0 := by
      intro i hi
      have := hCp (i + 1) (by simpa using Nat.succ_lt_succ hi)
      simpa using this
    have hcolsA : colsOf A = kA := colsOf_eq A rA kA hA0 hrA
    have hcolsB : colsOf B = cA := colsOf_eq B kA cA hB0 hkA
    have hlenB : B.length = kA := hB0.1
    have hTB : colsOf (transposeL B) = kA := by
      rw [colsOf_transposeL B (by rw [hcolsB]; exact hcA), hlenB]
    -- transpose of the right factor, block by block
    have hTBD : transposeL (blockDiagL (B :: Bs)) =
        blockDiagL (transposeL B :: Bs.map transposeL) := by
      have := transposeL_blockDiag (B :: Bs) (kA :: Ks) (cA :: Cs)
        (by simp [hlK, hlB]) (by simp [hlC, hlB])
        (by
          intro i hi
          cases i with
          | zero => simpa using hB0
          | succ i =>
            have hii : i < As.length := by
              rw [List.length_cons] at hi
              rw [← hlB]
              omega
            have := hdBrest i (by rw [← hlB] at hii; rw [hlB] at hii; exact hii)
            simpa using this)
        (by
          intro i hi
          cases i with
          | zero => simpa using hkA
          | succ i =>
            have hii : i < As.length := by
              rw [List.length_cons] at hi
              rw [← hlB]
              omega
            have := hKprest i hii
            simpa using this)
        (by
          intro i hi
          cases i with
          | zero => simpa using hcA
          | succ i =>
            have hii : i < As.length := by
              rw [List.length_cons] at hi
              rw [← hlB]
              omega
            have := hCprest i hii
            simpa using this)
      rw [this, List.map_cons]
    have hTBDrest : transposeL (blockDiagL Bs) =
        blockDiagL (Bs.map transposeL) :=
      transposeL_blockDiag Bs Ks Cs (by rw [hlK, ← hlB]) (by rw [hlC, ← hlB])
        (fun i hi => hdBrest i (by rw [← hlB]; exact hi))
        (fun i hi => hKprest i (by rw [← hlB]; exact hi))
        (fun i hi => hCprest i (by rw [← hlB]; exact hi))
    have hSpadlen : (blockDiagL (Bs.map transposeL)).length = Cs.sum := by
      exact (blockDiag_dims_general (Bs.map transposeL) Cs Ks
        (by rw [List.length_map, hlB, hlC])
        (by rw [List.length_map, hlB, hlK])
        (by
          intro i hi
          rw [List.length_map, hlB] at hi
          rw [getD_map_lt transposeL Bs i [] [] (by rw [hlB]; exact hi)]
          exact dims_transposeL (Bs.getD i []) (Ks.getD i 0) (Cs.getD i 0)
            (hdBrest i hi) (hKprest i hi))
        (by
          intro i hi
          rw [List.length_map, hlB] at hi
          exact hCprest i hi)).1
    have htZ : totalColsOf (List.zipWith matMul As Bs) = Cs.sum := by
      refine totalColsOf_eq_general (List.zipWith matMul As Bs) Rs Cs
        (by rw [List.length_zipWith, hlB, Nat.min_self, hlR]) ?_ ?_ ?_
      · rw [List.length_zipWith, hlB, Nat.min_self, hlC]
      · intro i hi
        rw [List.length_zipWith, hlB, Nat.min_self] at hi
        rw [getD_zipWith_matMul As Bs i hi (by rw [hlB]; exact hi)]
        exact dims_matMul (As.getD i []) (Bs.getD i []) (Rs.getD i 0)
          (Ks.getD i 0) (Cs.getD i 0) (hdArest i hi) (hdBrest i hi)
          (hKprest i hi)
      · intro i hi
        rw [List.length_zipWith, hlB, Nat.min_self] at hi
        exact hRprest i hi
    have hcolsAB : colsOf (matMul A B) = cA :=
      colsOf_eq (matMul A B) rA cA
        (dims_matMul A B rA kA cA hA0 hB0 hkA) hrA
    -- expose the block structure and split the rows of the product
    rw [List.zipWith_cons_cons, blockDiagL_cons A As,
      blockDiagL_cons (matMul A B) (List.zipWith matMul As Bs),
      matMul_def, List.map_append, hTBD,
      blockDiagL_cons (transposeL B) (Bs.map transposeL)]
    congr 1
    · -- rows of the first block
      rw [matMul_def A B, List.map_map, List.map_map]
      apply List.map_congr_left
      intro r hr
      have hrlen : r.length = kA := hA0.2 r hr
      simp only [Function.comp_apply]
      rw [List.map_append, List.map_map, List.map_map]
      congr 1
      · apply List.map_congr_left
        intro c hc
        have hclen : c.length = kA := by
          rw [mem_transposeL_length B c hc, hlenB]
        simp only [Function.comp_apply]
        rw [dotL_append_split r (List.replicate (totalColsOf As) 0) c
          (List.replicate (totalColsOf (Bs.map transposeL)) 0)
          (by rw [hrlen, hclen]),
          dotL_replicate_left, add_zero]
      · have hz : ∀ c' ∈ blockDiagL (Bs.map transposeL),
            ((fun c => dotL (r ++ List.replicate (totalColsOf As) 0) c) ∘
              fun c => List.replicate (colsOf (transposeL B)) 0 ++ c) c' =
            (0 : α) := by
          intro c' _
          simp only [Function.comp_apply]
          rw [dotL_append_split r (List.replicate (totalColsOf As) 0)
            (List.replicate (colsOf (transposeL B)) 0) c'
            (by rw [hrlen, List.length_replicate, hTB]),
            dotL_replicate_right, dotL_replicate_left, add_zero]
        rw [List.map_congr_left hz, map_zero_replicate, hSpadlen, htZ]
    · -- rows of the remaining blocks
      rw [List.map_map,
        ← ih Bs Rs Ks Cs hlR hlK hlC hlB hdArest hdBrest hRprest hKprest
          hCprest,
        matMul_def (blockDiagL As) (blockDiagL Bs), List.map_map]
      apply List.map_congr_left
      intro r2 hr2
      simp only [Function.comp_apply]
      rw [hTBDrest, List.map_append, List.map_map, List.map_map]
      have hz1 : ∀ c ∈ transposeL B,
          ((fun c => dotL (List.replicate (colsOf A) 0 ++ r2) c) ∘
            fun c => c ++ List.replicate (totalColsOf (Bs.map transposeL)) 0)
            c = (0 : α) := by
        intro c hc
        have hclen : c.length = kA := by
          rw [mem_transposeL_length B c hc, hlenB]
        simp only [Function.comp_apply]
        rw [dotL_append_split (List.replicate (colsOf A) 0) r2 c
          (List.replicate (totalColsOf (Bs.map transposeL)) 0)
          (by rw [List.length_replicate, hcolsA, hclen]),
          dotL_replicate_left, dotL_replicate_right, add_zero]
      rw [List.map_congr_left hz1, map_zero_replicate, length_transposeL,
        hcolsB]
      congr 1
      · rw [hcolsAB]
      · apply List.map_congr_left
        intro c' _
        simp only [Function.comp_apply]
        rw [dotL_append_split (List.replicate (colsOf A) 0) r2
          (List.replicate (colsOf (transposeL B)) 0) c'
          (by rw [List.length_replicate, List.length_replicate, hcolsA, hTB]),
          dotL_replicate_left, zero_add]

end BlockProductLemmas

section BlockColumnLemmas

variable {α : Type} [CommRing α]

theorem matMul_blockDiag_flatten : ∀ (As ys : List (Mat α)),
    ys.length = As.length →
    (∀ i, i < As.length → As.getD i [] ≠ []) →
    (∀ i, i < As.length →
      ∀ r ∈ As.getD i [], r.length = (ys.getD i []).length) →
    (∀ i, i < As.length → 0 < (ys.getD i []).length) →
    (∀ i, i < As.length → ∀ row ∈ ys.getD i [], row.length = 1) →
    matMul (blockDiagL As) ys.flatten =
      (List.zipWith matMul As ys).flatten := by
  intro As
  induction As with
  | nil =>
    intro ys hl _ _ _ _
    have hys : ys = [] := List.length_eq_zero.mp (by simpa using hl)
    subst hys
    rfl
  | cons A As ih =>
    intro ys hl hne hrow hpos h1
    rcases ys with _ | ⟨y, ys⟩
    · simp at hl
    have hl' : ys.length = As.length := by simpa using hl
    have hAne : A ≠ [] := by
      have := hne 0 (by simp)
      simpa using this
    have hrowA : ∀ r ∈ A, r.length = y.length := by
      have := hrow 0 (by simp)
      simpa using this
    have hy0 : 0 < y.length := by simpa using hpos 0 (by simp)
    have h1y : ∀ row ∈ y, row.length = 1 := by
      have := h1 0 (by simp)
      simpa using this
    have hne' : ∀ i, i < As.length → As.getD i [] ≠ [] := by
      intro i hi
      have := hne (i + 1) (by simpa using Nat.succ_lt_succ hi)
      simpa using this
    have hrow' : ∀ i, i < As.length →
        ∀ r ∈ As.getD i [], r.length = (ys.getD i []).length := by
      intro i hi
      have := hrow (i + 1) (by simpa using Nat.succ_lt_succ hi)
      simpa using this
    have hpos' : ∀ i, i < As.length → 0 < (ys.getD i []).length := by
      intro i hi
      have := hpos (i + 1) (by simpa using Nat.succ_lt_succ hi)
      simpa using this
    have h1' : ∀ i, i < As.length →
        ∀ row ∈ ys.getD i [], row.length = 1 := by
      intro i hi
      have := h1 (i + 1) (by simpa using Nat.succ_lt_succ hi)
      simpa using this
    have hrest1 : ∀ row ∈ ys.flatten, row.length = 1 := by
      intro row hrw
      obtain ⟨blk, hblk, hrb⟩ := List.mem_flatten.mp hrw
      obtain ⟨i, hi, rfl⟩ := List.getElem_of_mem hblk
      refine h1' i (by rw [← hl']; exact hi) row ?_
      rw [List.getD_eq_getElem ys [] hi]
      exact hrb
    have himp : ys.flatten = [] → blockDiagL As = [] := by
      intro hF
      rcases hAs : As with _ | ⟨A1, As'⟩
      · rfl
      · exfalso
        rcases hys : ys with _ | ⟨y1, ys'⟩
        · rw [hys, hAs] at hl'
          simp at hl'
        · have hy1 : 0 < y1.length := by
            have := hpos' 0 (by rw [hAs]; simp)
            rw [hys] at this
            simpa using this
          rw [hys, List.flatten_cons] at hF
          rcases List.append_eq_nil.mp hF with ⟨hy1nil, -⟩
          rw [hy1nil] at hy1
          simp at hy1
    have hYne : y ++ ys.flatten ≠ [] :=
      List.ne_nil_of_length_pos (by rw [List.length_append]; omega)
    have hYrows : ∀ row ∈ y ++ ys.flatten, row.length = 1 := by
      intro row hrw
      rcases List.mem_append.mp hrw with hrw | hrw
      · exact h1y row hrw
      · exact hrest1 row hrw
    have hcolsA : colsOf A = y.length := by
      rcases A with _ | ⟨r0, A'⟩
      · exact absurd rfl hAne
      · exact hrowA r0 (List.mem_cons_self r0 A')
    rw [List.flatten_cons, List.zipWith_cons_cons, List.flatten_cons,
      blockDiagL_cons, matMul_append_rows]
    congr 1
    · rw [matMul_to_col (A.map fun r =>
          r ++ List.replicate (totalColsOf As) 0) (y ++ ys.flatten) hYrows
          (fun hc => absurd hc hYne),
        matMul_to_col A y h1y
          (fun hc => absurd hc (List.ne_nil_of_length_pos hy0)),
        List.map_map]
      apply List.map_congr_left
      intro r hr
      simp only [Function.comp_apply]
      rw [List.map_append, dotL_append_split r
        (List.replicate (totalColsOf As) 0)
        (y.map fun row => row.getD 0 0)
        (ys.flatten.map fun row => row.getD 0 0)
        (by rw [List.length_map]; exact hrowA r hr),
        dotL_replicate_left, add_zero]
    · rw [matMul_to_col ((blockDiagL As).map fun r =>
          List.replicate (colsOf A) 0 ++ r) (y ++ ys.flatten) hYrows
          (fun hc => absurd hc hYne),
        ← ih ys hl' hne' hrow' hpos' h1',
        matMul_to_col (blockDiagL As) ys.flatten hrest1 himp,
        List.map_map]
      apply List.map_congr_left
      intro r2 _
      simp only [Function.comp_apply]
      rw [List.map_append, dotL_append_split
        (List.replicate (colsOf A) 0) r2
        (y.map fun row => row.getD 0 0)
        (ys.flatten.map fun row => row.getD 0 0)
        (by rw [List.length_replicate, List.length_map, hcolsA]),
        dotL_replicate_left, zero_add]

end BlockColumnLemmas

section BlockPinvLemmas

open Matrix

variable {α : Type} [CommRing α]

theorem toMat_eyeL (G : Nat) : toMat (eyeL G : Mat α) G G = 1 := by
  ext i j
  show entryM (eyeL G) i.1 j.1 = _
  rw [entryM_eyeL G i.1 j.1 i.2 j.2, Matrix.one_apply]
  by_cases h : i.1 = j.1
  · rw [if_pos h, if_pos (Fin.ext h)]
  · rw [if_neg h, if_neg fun hh => h (congrArg Fin.val hh)]

theorem reshapeNeg1_1_eq_flatten (M : Mat α) :
    reshapeNeg1_1 M = (M.map fun r => r.map fun v => [v]).flatten := by
  unfold reshapeNeg1_1
  rw [List.map_flatten]

theorem rowSliceL_flatten : ∀ (L : List (Mat α)) (i : Nat), i < L.length →
    rowSliceL L.flatten ((L.take i).map List.length).sum
      (L.getD i []).length = L.getD i [] := by
  intro L
  induction L with
  | nil => intro i hi; simp at hi
  | cons A L ih =>
    intro i hi
    cases i with
    | zero =>
      simp only [List.take_zero, List.map_nil, List.sum_nil,
        List.getD_cons_zero, List.flatten_cons]
      unfold rowSliceL
      rw [List.drop_zero, List.take_left]
    | succ j =>
      simp only [List.take_succ_cons, List.map_cons, List.sum_cons,
        List.getD_cons_succ, List.flatten_cons]
      unfold rowSliceL
      rw [← List.drop_drop, List.drop_left]
      exact ih j (by simpa using hi)

theorem map_length_zipWith_matMul (ps ybs : List (Mat α)) (Ks : List Nat)
    (hl1 : ps.length = Ks.length) (hl2 : ybs.length = Ks.length)
    (hlen : ∀ i, i < Ks.length → (ps.getD i []).length = Ks.getD i 0) :
    (List.zipWith matMul ps ybs).map List.length = Ks := by
  apply List.ext_getElem
  · rw [List.length_map, List.length_zipWith, hl1, hl2, Nat.min_self]
  · intro i h1 h2
    rw [List.getElem_map, List.getElem_zipWith]
    show (matMul _ _).length = _
    rw [matMul_def, List.length_map,
      show ps[i] = ps.getD i []
        from (List.getD_eq_getElem ps [] (by omega)).symm,
      hlen i h2]
    exact List.getD_eq_getElem Ks 0 h2

theorem isPinv_blockDiag (As Ps : List (Mat α)) (N : Nat) (Ks : List Nat)
    (hN : 0 < N) (hKl : Ks.length = As.length) (hPl : Ps.length = As.length)
    (hdA : ∀ i, i < As.length → Dims (As.getD i []) N (Ks.getD i 0))
    (hdP : ∀ i, i < As.length → Dims (Ps.getD i []) (Ks.getD i 0) N)
    (hKp : ∀ i, i < As.length → 0 < Ks.getD i 0)
    (hMP : ∀ i, i < As.length → IsPinv (As.getD i []) (Ps.getD i [])) :
    IsPinv (blockDiagL As) (blockDiagL Ps) := by
  have hrepA : ∀ i, i < As.length →
      Dims (As.getD i []) ((List.replicate As.length N).getD i 0)
        (Ks.getD i 0) := by
    intro i hi
    rw [getD_replicate_lt N As.length i 0 hi]
    exact hdA i hi
  have hrepP : ∀ i, i < As.length →
      Dims (Ps.getD i []) (Ks.getD i 0)
        ((List.replicate As.length N).getD i 0) := by
    intro i hi
    rw [getD_replicate_lt N As.length i 0 hi]
    exact hdP i hi
  have hrepPos : ∀ i, i < As.length →
      0 < (List.replicate As.length N).getD i 0 := by
    intro i hi
    rw [getD_replicate_lt N As.length i 0 hi]
    exact hN
  have hreplen : (List.replicate As.length N).length = As.length :=
    List.length_replicate _ _
  -- the two base products
  have hAP : matMul (blockDiagL As) (blockDiagL Ps) =
      blockDiagL (List.zipWith matMul As Ps) :=
    matMul_blockDiag As Ps (List.replicate As.length N) Ks
      (List.replicate As.length N) hreplen hKl hreplen hPl
      hrepA (fun i hi => by
        rw [show Ps.getD i [] =
            Ps.getD i [] from rfl]
        exact hrepP i hi)
      hrepPos hKp hrepPos
  have hPA : matMul (blockDiagL Ps) (blockDiagL As) =
      blockDiagL (List.zipWith matMul Ps As) := by
    have := matMul_blockDiag Ps As Ks (List.replicate As.length N) Ks
      (by rw [hKl, hPl]) (by rw [hreplen, hPl]) (by rw [hKl, hPl])
      (by rw [hPl])
      (fun i hi => by
        rw [hPl] at hi
        exact hrepP i hi)
      (fun i hi => by
        rw [hPl] at hi
        exact hrepA i hi)
      (fun i hi => by
        rw [hPl] at hi
        exact hKp i hi)
      (fun i hi => by
        rw [hPl] at hi
        exact hrepPos i hi)
      (fun i hi => by
        rw [hPl] at hi
        exact hKp i hi)
    exact this
  -- dims of the two product block lists
  have hZAP : ∀ i, i < As.length →
      (List.zipWith matMul As Ps).getD i [] =
        matMul (As.getD i []) (Ps.getD i []) := by
    intro i hi
    exact getD_zipWith_matMul As Ps i hi (by rw [hPl]; exact hi)
  have hZPA : ∀ i, i < As.length →
      (List.zipWith matMul Ps As).getD i [] =
        matMul (Ps.getD i []) (As.getD i []) := by
    intro i hi
    exact getD_zipWith_matMul Ps As i (by rw [hPl]; exact hi) hi
  have hlZAP : (List.zipWith matMul As Ps).length = As.length := by
    rw [List.length_zipWith, hPl, Nat.min_self]
  have hlZPA : (List.zipWith matMul Ps As).length = As.length := by
    rw [List.length_zipWith, hPl, Nat.min_self]
  have hdZAP : ∀ i, i < As.length →
      Dims ((List.zipWith matMul As Ps).getD i []) N N := by
    intro i hi
    rw [hZAP i hi]
    exact dims_matMul _ _ N (Ks.getD i 0) N (hdA i hi) (hdP i hi) (hKp i hi)
  have hdZPA : ∀ i, i < As.length →
      Dims ((List.zipWith matMul Ps As).getD i [])
        (Ks.getD i 0) (Ks.getD i 0) := by
    intro i hi
    rw [hZPA i hi]
    exact dims_matMul _ _ (Ks.getD i 0) N (Ks.getD i 0) (hdP i hi)
      (hdA i hi) hN
  refine ⟨?_, ?_, ?_, ?_⟩
  · -- A P A = A
    rw [hAP]
    rw [matMul_blockDiag (List.zipWith matMul As Ps) As
      (List.replicate As.length N) (List.replicate As.length N) Ks
      (by rw [hreplen, hlZAP]) (by rw [hreplen, hlZAP])
      (by rw [hKl, hlZAP]) (by rw [hlZAP])
      (fun i hi => by
        rw [hlZAP] at hi
        rw [getD_replicate_lt N As.length i 0 hi]
        exact hdZAP i hi)
      (fun i hi => by
        rw [hlZAP] at hi
        rw [getD_replicate_lt N As.length i 0 hi]
        exact hdA i hi)
      (fun i hi => by
        rw [hlZAP] at hi
        exact hrepPos i hi)
      (fun i hi => by
        rw [hlZAP] at hi
        exact hrepPos i hi)
      (fun i hi => by
        rw [hlZAP] at hi
        exact hKp i hi)]
    congr 1
    apply List.ext_getElem
    · rw [List.length_zipWith, hlZAP, Nat.min_self]
    · intro i h1 h2
      have hi : i < As.length := by
        rw [List.length_zipWith, hlZAP, Nat.min_self] at h1
        exact h1
      rw [List.getElem_zipWith]
      have e1 := (hMP i hi).1
      rw [show (List.zipWith matMul As Ps)[i] =
          (List.zipWith matMul As Ps).getD i []
          from (List.getD_eq_getElem _ [] (by rw [hlZAP]; exact hi)).symm,
        hZAP i hi,
        show As[i] = As.getD i []
          from (List.getD_eq_getElem As [] hi).symm]
      exact e1
  · -- P A P = P
    rw [hPA]
    rw [matMul_blockDiag (List.zipWith matMul Ps As) Ps
      Ks Ks (List.replicate As.length N)
      (by rw [hKl, hlZPA]) (by rw [hKl, hlZPA])
      (by rw [hreplen, hlZPA]) (by rw [hPl, hlZPA])
      (fun i hi => by
        rw [hlZPA] at hi
        exact hdZPA i hi)
      (fun i hi => by
        rw [hlZPA] at hi
        exact hrepP i hi)
      (fun i hi => by
        rw [hlZPA] at hi
        exact hKp i hi)
      (fun i hi => by
        rw [hlZPA] at hi
        exact hKp i hi)
      (fun i hi => by
        rw [hlZPA] at hi
        exact hrepPos i hi)]
    congr 1
    apply List.ext_getElem
    · rw [List.length_zipWith, hlZPA, hPl, Nat.min_self]
    · intro i h1 h2
      have hi : i < As.length := by
        rw [List.length_zipWith, hlZPA, hPl, Nat.min_self] at h1
        exact h1
      rw [List.getElem_zipWith]
      have e2 := (hMP i hi).2.1
      rw [show (List.zipWith matMul Ps As)[i] =
          (List.zipWith matMul Ps As).getD i []
          from (List.getD_eq_getElem _ [] (by rw [hlZPA]; exact hi)).symm,
        hZPA i hi,
        show Ps[i] = Ps.getD i []
          from (List.getD_eq_getElem Ps [] (by rw [hPl]; exact hi)).symm]
      exact e2
  · -- (A P)ᵀ = A P
    rw [hAP]
    rw [transposeL_blockDiag (List.zipWith matMul As Ps)
      (List.replicate As.length N) (List.replicate As.length N)
      (by rw [hreplen, hlZAP]) (by rw [hreplen, hlZAP])
      (fun i hi => by
        rw [hlZAP] at hi
        rw [getD_replicate_lt N As.length i 0 hi]
        exact hdZAP i hi)
      (fun i hi => by
        rw [hlZAP] at hi
        exact hrepPos i hi)
      (fun i hi => by
        rw [hlZAP] at hi
        exact hrepPos i hi)]
    congr 1
    apply List.ext_getElem
    · rw [List.length_map]
    · intro i h1 h2
      have hi : i < As.length := by
        rw [List.length_map, hlZAP] at h1
        exact h1
      rw [List.getElem_map]
      have e3 := (hMP i hi).2.2.1
      rw [show (List.zipWith matMul As Ps)[i] =
          (List.zipWith matMul As Ps).getD i []
          from (List.getD_eq_getElem _ [] (by rw [hlZAP]; exact hi)).symm,
        hZAP i hi]
      exact e3
  · -- (P A)ᵀ = P A
    rw [hPA]
    rw [transposeL_blockDiag (List.zipWith matMul Ps As) Ks Ks
      (by rw [hKl, hlZPA]) (by rw [hKl, hlZPA])
      (fun i hi => by
        rw [hlZPA] at hi
        exact hdZPA i hi)
      (fun i hi => by
        rw [hlZPA] at hi
        exact hKp i hi)
      (fun i hi => by
        rw [hlZPA] at hi
        exact hKp i hi)]
    congr 1
    apply List.ext_getElem
    · rw [List.length_map]
    · intro i h1 h2
      have hi : i < As.length := by
        rw [List.length_map, hlZPA] at h1
        exact h1
      rw [List.getElem_map]
      have e4 := (hMP i hi).2.2.2
      rw [show (List.zipWith matMul Ps As)[i] =
          (List.zipWith matMul Ps As).getD i []
          from (List.getD_eq_getElem _ [] (by rw [hlZPA]; exact hi)).symm,
        hZPA i hi]
      exact e4

end BlockPinvLemmas

section ClaimC9

open Matrix

/-- Claim C9: for every system fitted with covariance equal to
`identity(G)` (the resolution of `sigma = None`), the coefficient block of
the pooled estimate belonging to equation `i` — rows
`[sum of K_j for j < i, sum for j <= i)` of `params` — equals the
least-squares solution `pinv(X_i) @ y_i` of regressing equation `i`'s
response on its own regressors alone.  `ps` lists the per-equation
Moore-Penrose pseudo-inverses. -/
theorem claim_C9_ols_per_equation (sys : List (Equation ℚ))
    (chol pinvW P : Mat ℚ) (ps : List (Mat ℚ)) (Ks : List Nat) (N : Nat)
    {st : SysGLSData ℚ}
    (h : sysGLSInit sys none chol pinvW = .ok st)
    (hend : ∀ e ∈ sys, e.endog.length = N) (hN : 0 < N)
    (hKl : Ks.length = sys.length) (hpl : ps.length = sys.length)
    (hdim : ∀ i, i < sys.length →
      Dims ((sys.map Equation.exog).getD i []) N (Ks.getD i 0))
    (hKpos : ∀ i, i < sys.length → 0 < Ks.getD i 0)
    (hpdim : ∀ i, i < sys.length →
      Dims (ps.getD i []) (Ks.getD i 0) N)
    (hpMP : ∀ i, i < sys.length →
      IsPinv ((sys.map Equation.exog).getD i []) (ps.getD i []))
    (hPd : Dims P sys.length sys.length) (hP : IsPinv st.sigma P)
    (hch : CholFac chol P sys.length)
    (hqd : Dims st.pinv_wexog Ks.sum (sys.length * N))
    (hq : IsPinv st.wexog st.pinv_wexog) :
    st.sigma = eyeL sys.length ∧
    ∀ i, i < sys.length →
      rowSliceL (sysGLSFit st).params ((Ks.take i).sum) (Ks.getD i 0) =
        matMul (ps.getD i [])
          (((sys.map Equation.endog).getD i []).map fun v => [v]) := by
  obtain ⟨e0, rest, sg, hsys, hres, hst⟩ := sysGLSInit_ok _ _ _ _ _ h
  subst hsys
  have hsg : sg = diagL (onesL (e0 :: rest).length) :=
    (Except.ok.inj (show Except.ok (diagL (onesL (e0 :: rest).length)) =
      Except.ok sg from hres)).symm
  subst hsg
  subst hst
  set G := (e0 :: rest).length with hGdef
  set Xs := (e0 :: rest).map Equation.exog with hXsdef
  set ybs := ((e0 :: rest).map Equation.endog).map
    (fun r => r.map fun v => [v]) with hybsdef
  have hnobs : e0.endog.length = N := hend e0 (List.mem_cons_self e0 rest)
  have hGpos : 0 < G := by rw [hGdef]; simp
  have hGN : 0 < G * N := Nat.mul_pos hGpos hN
  have hXsl : Xs.length = G := by rw [hXsdef, List.length_map]
  have hSK : 0 < Ks.sum := by
    rcases Ks with _ | ⟨k, ks⟩
    · rw [hGdef] at hKl
      simp at hKl
    · have h0 := hKpos 0 (by rw [hGdef]; simp)
      simp only [List.getD_cons_zero] at h0
      rw [List.sum_cons]
      omega
  -- the resolved covariance is the identity
  refine ⟨rfl, ?_⟩
  -- pseudo-inverse of the identity covariance, hence orthogonal whitening
  have hsig1 : toMat (diagL (onesL G) : Mat ℚ) G G = 1 := toMat_eyeL G
  have hm1 : MPMat (toMat (diagL (onesL G) : Mat ℚ) G G) (toMat P G G) :=
    isPinv_toMat (diagL (onesL G)) P G G
      (by
        have := dims_diagL (onesL G : List ℚ)
        simpa [onesL] using this)
      hPd hGpos hGpos hP
  rw [hsig1] at hm1
  have hm11 : MPMat (1 : Matrix (Fin G) (Fin G) ℚ) 1 :=
    ⟨by simp, by simp, by simp, by simp⟩
  have hPeq : toMat P G G = 1 := mpmat_unique _ _ _ hm1 hm11
  have hCC : toMat chol G G * (toMat chol G G)ᵀ = 1 := by
    rw [cholFac_toMat chol P G hGpos hch]
    exact hPeq
  have hCt : (toMat chol G G)ᵀ * toMat chol G G = 1 := mul_eq_one_comm.mp hCC
  have hU : kronFin ((toMat chol G G)ᵀ) N *
      (kronFin ((toMat chol G G)ᵀ) N)ᵀ = 1 := by
    rw [← kronFin_transpose, Matrix.transpose_transpose, ← kronFin_mul,
      hCt, kronFin_one]
  -- the block design and its block pseudo-inverse
  have hdim' : ∀ i, i < Xs.length → Dims (Xs.getD i []) N (Ks.getD i 0) := by
    intro i hi
    rw [hXsl] at hi
    exact hdim i hi
  have hBDX : IsPinv (blockDiagL Xs) (blockDiagL ps) := by
    refine isPinv_blockDiag Xs ps N Ks hN (by rw [hXsl, hKl])
      (by rw [hXsl, hpl]) hdim' ?_ ?_ ?_
    · intro i hi
      rw [hXsl] at hi
      exact hpdim i hi
    · intro i hi
      rw [hXsl] at hi
      exact hKpos i hi
    · intro i hi
      rw [hXsl] at hi
      exact hpMP i hi
  have hdXB : Dims (blockDiagL Xs) (G * N) Ks.sum := by
    have := blockDiag_dims Xs N Ks hN (by rw [hXsl, hKl]) hdim'
    rwa [hXsl] at this
  have hdPB : Dims (blockDiagL ps) Ks.sum (G * N) := by
    have := blockDiag_dims_general ps Ks (List.replicate G N)
      (by rw [hKl, hpl]) (by rw [List.length_replicate, hpl])
      (by
        intro i hi
        rw [hpl] at hi
        rw [getD_replicate_lt N G i 0 hi]
        exact hpdim i hi)
      (by
        intro i hi
        rw [hpl] at hi
        exact hKpos i hi)
    rwa [List.sum_replicate, smul_eq_mul] at this
  have hmpBD : MPMat (toMat (blockDiagL Xs) (G * N) Ks.sum)
      (toMat (blockDiagL ps) Ks.sum (G * N)) :=
    isPinv_toMat _ _ (G * N) Ks.sum hdXB hdPB hGN hSK hBDX
  -- the whitened design is an orthogonal transform of the block design
  have hchd : Dims chol G G := hch.1
  have hcsi : Dims (transposeL chol) G G := dims_transposeL chol G G hchd hGpos
  have hq' : IsPinv (whitenL (transposeL chol) N (blockDiagL Xs))
      pinvW := by
    rw [← hnobs]
    exact hq
  have hYd : Dims (reshapeNeg1_1 ((e0 :: rest).map Equation.endog))
      (G * N) 1 := by
    rw [hGdef]
    apply dims_reshapeNeg1_1 _ (e0 :: rest).length N (by simp)
    intro r hr2
    obtain ⟨e, he2, rfl⟩ := List.mem_map.mp hr2
    exact hend e he2
  have hW1d : Dims (whitenL (transposeL chol) N (blockDiagL Xs))
      (G * N) Ks.sum := dims_whitenL _ _ G N Ks.sum hcsi hdXB hGN
  have hWy1d : Dims (whitenL (transposeL chol) N
      (reshapeNeg1_1 ((e0 :: rest).map Equation.endog))) (G * N) 1 :=
    dims_whitenL _ _ G N 1 hcsi hYd hGN
  have hTW : toMat (whitenL (transposeL chol) N (blockDiagL Xs))
      (G * N) Ks.sum =
      kronFin ((toMat chol G G)ᵀ) N * toMat (blockDiagL Xs) (G * N) Ks.sum := by
    rw [toMat_whitenL (transposeL chol) _ G N Ks.sum hcsi hdXB hGpos hN,
      toMat_transposeL chol G G hchd hGpos]
  have hTy : toMat (whitenL (transposeL chol) N
      (reshapeNeg1_1 ((e0 :: rest).map Equation.endog))) (G * N) 1 =
      kronFin ((toMat chol G G)ᵀ) N *
        toMat (reshapeNeg1_1 ((e0 :: rest).map Equation.endog)) (G * N) 1 := by
    rw [toMat_whitenL (transposeL chol) _ G N 1 hcsi hYd hGpos hN,
      toMat_transposeL chol G G hchd hGpos]
  have hQM : MPMat (kronFin ((toMat chol G G)ᵀ) N *
      toMat (blockDiagL Xs) (G * N) Ks.sum)
      (toMat pinvW Ks.sum (G * N)) := by
    rw [← hTW]
    exact isPinv_toMat _ _ (G * N) Ks.sum hW1d hqd hGN hSK hq'
  have hMP2 : MPMat (kronFin ((toMat chol G G)ᵀ) N *
      toMat (blockDiagL Xs) (G * N) Ks.sum)
      (toMat (blockDiagL ps) Ks.sum (G * N) *
        (kronFin ((toMat chol G G)ᵀ) N)ᵀ) :=
    mpmat_orthmul _ _ _ hU hmpBD
  have hQeq : toMat pinvW Ks.sum (G * N) =
      toMat (blockDiagL ps) Ks.sum (G * N) *
        (kronFin ((toMat chol G G)ᵀ) N)ᵀ :=
    mpmat_unique _ _ _ hQM hMP2
  -- the fitted parameters coincide with the unwhitened block solution
  have hUt : (kronFin ((toMat chol G G)ᵀ) N) ᵀ *
      kronFin ((toMat chol G G)ᵀ) N = 1 := mul_eq_one_comm.mp hU
  have hparams : matMul pinvW
      (whitenL (transposeL chol) N
        (reshapeNeg1_1 ((e0 :: rest).map Equation.endog))) =
      matMul (blockDiagL ps)
        (reshapeNeg1_1 ((e0 :: rest).map Equation.endog)) := by
    apply toMat_inj _ _ Ks.sum 1
      (dims_matMul _ _ Ks.sum (G * N) 1 hqd hWy1d hGN)
      (dims_matMul _ _ Ks.sum (G * N) 1 hdPB hYd hGN)
    rw [toMat_matMul _ _ Ks.sum (G * N) 1 hqd hWy1d hGN,
      toMat_matMul _ _ Ks.sum (G * N) 1 hdPB hYd hGN, hTy, hQeq]
    calc toMat (blockDiagL ps) Ks.sum (G * N) *
          (kronFin ((toMat chol G G)ᵀ) N)ᵀ *
          (kronFin ((toMat chol G G)ᵀ) N *
            toMat (reshapeNeg1_1 ((e0 :: rest).map Equation.endog)) (G * N) 1)
        = toMat (blockDiagL ps) Ks.sum (G * N) *
          (((kronFin ((toMat chol G G)ᵀ) N)ᵀ *
            kronFin ((toMat chol G G)ᵀ) N) *
            toMat (reshapeNeg1_1 ((e0 :: rest).map Equation.endog))
              (G * N) 1) := by
          simp only [Matrix.mul_assoc]
    _ = toMat (blockDiagL ps) Ks.sum (G * N) *
          toMat (reshapeNeg1_1 ((e0 :: rest).map Equation.endog)) (G * N) 1 := by
          rw [hUt, Matrix.one_mul]
  -- split the block solution into per-equation solutions
  have hyflat : reshapeNeg1_1 ((e0 :: rest).map Equation.endog) =
      ybs.flatten := by
    rw [hybsdef]
    exact reshapeNeg1_1_eq_flatten _
  have hybsl : ybs.length = G := by
    rw [hybsdef, List.length_map, List.length_map]
  have hybsget : ∀ i, i < G → ybs.getD i [] =
      (((e0 :: rest).map Equation.endog).getD i []).map fun v => [v] := by
    intro i hi
    rw [hybsdef]
    exact getD_map_lt _ _ i [] [] (by rw [List.length_map, ← hGdef]; exact hi)
  have hybslen : ∀ i, i < G → (ybs.getD i []).length = N := by
    intro i hi
    rw [hybsget i hi, List.length_map]
    have hi' : i < (e0 :: rest).length := by rw [← hGdef]; exact hi
    rw [getD_map_lt Equation.endog (e0 :: rest) i [] ⟨[], []⟩
      hi']
    exact hend _ (getD_mem_of_lt (e0 :: rest) i ⟨[], []⟩ hi')
  have hsplit : matMul (blockDiagL ps)
      (reshapeNeg1_1 ((e0 :: rest).map Equation.endog)) =
      (List.zipWith matMul ps ybs).flatten := by
    rw [hyflat]
    apply matMul_blockDiag_flatten ps ybs (by rw [hybsl, hpl])
    · intro i hi
      rw [hpl] at hi
      apply List.ne_nil_of_length_pos
      rw [(hpdim i hi).1]
      exact hKpos i hi
    · intro i hi
      rw [hpl] at hi
      intro r hr
      rw [hybslen i hi]
      exact (hpdim i hi).2 r hr
    · intro i hi
      rw [hpl] at hi
      rw [hybslen i hi]
      exact hN
    · intro i hi
      rw [hpl] at hi
      intro row hrow
      rw [hybsget i hi] at hrow
      obtain ⟨v, -, rfl⟩ := List.mem_map.mp hrow
      rfl
  -- rows of the flattened solution
  intro i hi
  have hiG : i < G := hi
  have hZl : (List.zipWith matMul ps ybs).length = G := by
    rw [List.length_zipWith, hybsl, hpl, Nat.min_self]
  have hmaplen : (List.zipWith matMul ps ybs).map List.length = Ks := by
    apply map_length_zipWith_matMul ps ybs Ks (by rw [hpl, hKl])
      (by rw [hybsl, hKl])
    intro j hj
    rw [hKl] at hj
    exact (hpdim j hj).1
  have hZget : (List.zipWith matMul ps ybs).getD i [] =
      matMul (ps.getD i []) (ybs.getD i []) :=
    getD_zipWith_matMul ps ybs i (by rw [hpl]; exact hiG)
      (by rw [hybsl]; exact hiG)
  have hZleni : ((List.zipWith matMul ps ybs).getD i []).length =
      Ks.getD i 0 := by
    rw [hZget, matMul_def, List.length_map]
    exact (hpdim i hi).1
  have hr := rowSliceL_flatten (List.zipWith matMul ps ybs) i
    (by rw [hZl]; exact hiG)
  rw [List.map_take, hmaplen, hZleni, hZget] at hr
  show rowSliceL (matMul pinvW
    (whitenL (transposeL chol) e0.endog.length
      (reshapeNeg1_1 ((e0 :: rest).map Equation.endog))))
    ((Ks.take i).sum) (Ks.getD i 0) = _
  rw [hnobs, hparams, hsplit, hr, hybsget i hiG]

theorem claim_C9_witness :
    ∃ st : SysGLSData ℚ,
      sysGLSInit [(⟨[1], [[1]]⟩ : Equation ℚ)] none [[1]] [[1]] = .ok st ∧
      st.sigma = eyeL 1 ∧
      rowSliceL (sysGLSFit st).params (([1].take 0).sum) ([1].getD 0 0) =
        matMul [[(1 : ℚ)]]
          ((([(⟨[1], [[1]]⟩ : Equation ℚ)].map
            Equation.endog).getD 0 []).map fun v => [v]) := by
  refine ⟨_, rfl, ?_, ?_⟩
  · exact (claim_C9_ols_per_equation [(⟨[1], [[1]]⟩ : Equation ℚ)]
      [[1]] [[1]] [[1]] [[[1]]] [1] 1 rfl
      (by
        intro e he
        rcases List.mem_singleton.mp he with rfl
        rfl)
      (by decide) rfl rfl
      (by
        intro i hi
        simp only [List.length_cons, List.length_nil] at hi
        interval_cases i
        simp [Dims])
      (by
        intro i hi
        simp only [List.length_cons, List.length_nil] at hi
        interval_cases i
        decide)
      (by
        intro i hi
        simp only [List.length_cons, List.length_nil] at hi
        interval_cases i
        simp [Dims])
      (by
        intro i hi
        simp only [List.length_cons, List.length_nil] at hi
        interval_cases i
        norm_num [IsPinv, matMul, transposeL, dotL, colsOf, entryM,
          List.range_succ])
      (by simp [Dims])
      (by norm_num [IsPinv, matMul, transposeL, dotL, colsOf, entryM,
        diagL, onesL, List.range_succ])
      (by
        refine ⟨⟨rfl, ?_⟩, ?_, ?_, ?_⟩
        · intro r hr
          rcases List.mem_singleton.mp hr with rfl
          rfl
        · intro i hi j hj hij
          simp only [List.length_cons, List.length_nil] at hi hj
          omega
        · intro i hi
          simp only [List.length_cons, List.length_nil] at hi
          interval_cases i
          norm_num [entryM]
        · norm_num [matMul, transposeL, dotL, colsOf, entryM,
            List.range_succ])
      (by simp [Dims])
      (by norm_num [IsPinv, whitenL, matMul, transposeL, dotL, colsOf,
        entryM, kronL, eyeL, diagL, onesL, blockDiagL, totalColsOf,
        List.range_succ])).1
  · exact (claim_C9_ols_per_equation [(⟨[1], [[1]]⟩ : Equation ℚ)]
      [[1]] [[1]] [[1]] [[[1]]] [1] 1 rfl
      (by
        intro e he
        rcases List.mem_singleton.mp he with rfl
        rfl)
      (by decide) rfl rfl
      (by
        intro i hi
        simp only [List.length_cons, List.length_nil] at hi
        interval_cases i
        simp [Dims])
      (by
        intro i hi
        simp only [List.length_cons, List.length_nil] at hi
        interval_cases i
        decide)
      (by
        intro i hi
        simp only [List.length_cons, List.length_nil] at hi
        interval_cases i
        simp [Dims])
      (by
        intro i hi
        simp only [List.length_cons, List.length_nil] at hi
        interval_cases i
        norm_num [IsPinv, matMul, transposeL, dotL, colsOf, entryM,
          List.range_succ])
      (by simp [Dims])
      (by norm_num [IsPinv, matMul, transposeL, dotL, colsOf, entryM,
        diagL, onesL, List.range_succ])
      (by
        refine ⟨⟨rfl, ?_⟩, ?_, ?_, ?_⟩
        · intro r hr
          rcases List.mem_singleton.mp hr with rfl
          rfl
        · intro i hi j hj hij
          simp only [List.length_cons, List.length_nil] at hi hj
          omega
        · intro i hi
          simp only [List.length_cons, List.length_nil] at hi
          interval_cases i
          norm_num [entryM]
        · norm_num [matMul, transposeL, dotL, colsOf, entryM,
            List.range_succ])
      (by simp [Dims])
      (by norm_num [IsPinv, whitenL, matMul, transposeL, dotL, colsOf,
        entryM, kronL, eyeL, diagL, onesL, blockDiagL, totalColsOf,
        List.range_succ])).2 0 (by decide)

end ClaimC9

end SysReg
